import Mathlib

/-!
Verification of the encrypted-pouch layer: a shallow embedding of
src/encryption.ts (the EncryptionHelper cipher engine) and of
src/encryptedPouch.ts (the EncryptedPouch orchestration layer), with
theorems settling the specification claims.

Host platform primitives (WebCrypto AES-256-GCM, PBKDF2/SHA-256,
TextEncoder/TextDecoder, JSON.stringify/JSON.parse, the PouchDB store)
are not part of the repository; they are modelled as idealized
deterministic primitives, each marked in its doc comment.  Everything
that is repository code (hex codec, separator handling, field
partitioning, identifier codec, scan/change/conflict orchestration,
sync guards) is translated directly from the source.
-/

namespace EP

/-- Passphrase mode of the cipher engine: PBKDF2 derivation or a single
SHA-256 hash (EncryptionHelper constructor argument passphraseMode). -/
inductive Mode
  | derive
  | raw
  deriving DecidableEq, Repr

/-- Idealized 256-bit AES key.  Both key-derivation modes are
deterministic functions of the passphrase alone (the derive mode reuses
the passphrase as its own salt), so the derived key is modelled as the
pair of the mode and the passphrase, with the KDF treated as injective. -/
structure Key where
  mode : Mode
  passphrase : String
  deriving DecidableEq, Repr

/-- Host-level exceptions that can arise inside the decrypt pipeline and
the store paths before a catch block converts or swallows them. -/
inductive JSErr
  | typeErr
  | opErr
  | invalidId (id : String)
  | jsonErr
  | notFound
  | decryptionErr (msg : String)
  deriving DecidableEq, Repr

instance {ε α : Type} [DecidableEq ε] [DecidableEq α] : DecidableEq (Except ε α) := fun a b =>
  match a, b with
  | .ok x, .ok y => if h : x = y then .isTrue (by rw [h]) else .isFalse (by simp [h])
  | .error x, .error y => if h : x = y then .isTrue (by rw [h]) else .isFalse (by simp [h])
  | .ok _, .error _ => .isFalse (by simp)
  | .error _, .ok _ => .isFalse (by simp)

/-- Model of the platform TextEncoder for one character: a fixed-width
three-byte big-endian encoding of the code point, an idealized injective
byte encoding standing for UTF-8 (all produced bytes are below 256). -/
def encChar (c : Char) : List Nat :=
  [c.toNat / 65536, c.toNat / 256 % 256, c.toNat % 256]

/-- Model of the platform TextEncoder on a character list. -/
def textEncode : List Char → List Nat
  | [] => []
  | c :: cs => encChar c ++ textEncode cs

/-- Model of the platform TextDecoder: inverse of the three-byte-per-character
encoding; a trailing partial group is dropped. -/
def textDecode : List Nat → List Char
  | b2 :: b1 :: b0 :: bs => Char.ofNat (b2 * 65536 + b1 * 256 + b0) :: textDecode bs
  | _ => []

/-- Hex digit characters as produced by JavaScript Number.toString(16):
0-9 then lowercase a-f. -/
def hexDigitChar (n : Nat) : Char :=
  Char.ofNat (if n < 10 then 48 + n else 87 + n)

/-- Digit loop of the toString(16) model, structurally recursive on a
fuel bound so that the kernel can evaluate it (the fuel is always at
least the number, which bounds the iteration count). -/
def natToHexF : Nat → Nat → List Char
  | 0, n => [hexDigitChar n]
  | f + 1, n =>
    if n < 16 then [hexDigitChar n]
    else natToHexF f (n / 16) ++ [hexDigitChar (n % 16)]

/-- Model of Number.toString(16) on a natural number: minimal-length
lowercase hexadecimal digits. -/
def natToHex (n : Nat) : List Char := natToHexF n n

/-- Model of String.padStart(2, "0"). -/
def padStart2 (cs : List Char) : List Char :=
  if cs.length < 2 then List.replicate (2 - cs.length) '0' ++ cs else cs

/-- Model of EncryptionHelper.toHexString: the reduce concatenates, for
each byte, its hex representation left-padded to two digits. -/
def toHexStr : List Nat → List Char
  | [] => []
  | b :: bs => padStart2 (natToHex b) ++ toHexStr bs

/-- Model of the regular expression match splitting a string into chunks
of one or two characters (the fromHexString match call). -/
def chunk2 : List Char → List (List Char)
  | [] => []
  | [c] => [[c]]
  | c1 :: c2 :: cs => [c1, c2] :: chunk2 cs

/-- Value of a single hexadecimal digit character, upper or lower case. -/
def hexVal (c : Char) : Option Nat :=
  if 48 ≤ c.toNat ∧ c.toNat ≤ 57 then some (c.toNat - 48)
  else if 97 ≤ c.toNat ∧ c.toNat ≤ 102 then some (c.toNat - 87)
  else if 65 ≤ c.toNat ∧ c.toNat ≤ 70 then some (c.toNat - 55)
  else none

/-- Accumulating loop of the hex parse: consume hex digits while they last. -/
def parseHexGo (acc : Nat) : List Char → Nat
  | [] => acc
  | c :: cs =>
    match hexVal c with
    | some v => parseHexGo (acc * 16 + v) cs
    | none => acc

/-- Model of parseInt(chunk, 16): the value of the longest hex-digit
prefix, none (NaN) when the first character is not a hex digit. -/
def parseHex : List Char → Option Nat
  | [] => none
  | c :: cs =>
    match hexVal c with
    | some v => some (parseHexGo v cs)
    | none => none

/-- Byte as stored by the Uint8Array constructor: NaN becomes zero and
the value is reduced modulo 256. -/
def toByte (cs : List Char) : Nat := (parseHex cs).getD 0 % 256

/-- Model of EncryptionHelper.fromHexString: chunk the string into groups
of at most two characters and parse each as hex.  On the empty string the
match call returns null and mapping over it throws a TypeError. -/
def fromHexJS (cs : List Char) : Except JSErr (List Nat) :=
  if cs.isEmpty then .error .typeErr
  else .ok ((chunk2 cs).map toByte)

/-- Digit loop of the base-255 length encoding, structurally recursive
on a fuel bound so that the kernel can evaluate it. -/
def lenDigitsF : Nat → Nat → List Nat
  | 0, _ => []
  | f + 1, n => if n = 0 then [] else n % 255 :: lenDigitsF f (n / 255)

/-- Prefix-free byte encoding of a natural number used inside the
idealized cipher: base-255 digits, closed by a 255 terminator in lenCode. -/
def lenDigits (n : Nat) : List Nat := lenDigitsF n n

/-- Length marker of the idealized cipher header. -/
def lenCode (n : Nat) : List Nat := lenDigits n ++ [255]

/-- Header of the idealized AES-256-GCM ciphertext: a tag-like block
binding the key (mode byte, length-delimited passphrase bytes) and the
nonce.  It stands for the authentication performed by the WebCrypto
subtle.decrypt call: decryption recomputes it and compares. -/
def gcmHeader (k : Key) (iv : List Nat) : List Nat :=
  (match k.mode with | .derive => 0 | .raw => 1)
    :: lenCode k.passphrase.length ++ textEncode k.passphrase.data ++ iv

/-- Idealized WebCrypto subtle.encrypt for AES-256-GCM: the authenticated
ciphertext is the header followed by the plaintext bytes. -/
def gcmEncrypt (k : Key) (iv : List Nat) (pt : List Nat) : List Nat :=
  gcmHeader k iv ++ pt

/-- Idealized WebCrypto subtle.decrypt for AES-256-GCM: authenticate by
recomputing the header; a mismatch rejects with an OperationError.  The
ciphertext argument is optional because the source can destructure an
undefined segment out of the split, which makes the call throw. -/
def gcmDecrypt (k : Key) (iv : List Nat) (ct : Option (List Nat)) : Except JSErr (List Nat) :=
  match ct with
  | none => .error .typeErr
  | some ct =>
    let h := gcmHeader k iv
    if ct.take h.length = h then .ok (ct.drop h.length) else .error .opErr

/-- Model of String.prototype.split on the pipe separator. -/
def splitPipe : List Char → List (List Char)
  | [] => [[]]
  | c :: cs =>
    if c = '|' then [] :: splitPipe cs
    else
      match splitPipe cs with
      | [] => [[c]]
      | p :: ps => (c :: p) :: ps

/-- Model of EncryptionHelper.encrypt.  The fresh random 96-bit nonce
produced by getRandomValues is passed explicitly as the iv argument. -/
def encryptS (k : Key) (iv : List Nat) (s : String) : String :=
  String.mk (toHexStr iv) ++ "|" ++ String.mk (toHexStr (gcmEncrypt k iv (textEncode s.data)))

/-- Raw decrypt pipeline of EncryptionHelper.decrypt before the catch
block: split on the separator, hex-decode every segment, destructure the
first two, authenticate-and-decrypt, decode the plaintext bytes. -/
def decryptRaw (k : Key) (s : String) : Except JSErr String := do
  let decoded ← (splitPipe s.data).mapM fromHexJS
  match decoded with
  | iv :: ct :: _ => do
    let pt ← gcmDecrypt k iv (some ct)
    pure (String.mk (textDecode pt))
  | [iv] => do
    let pt ← gcmDecrypt k iv none
    pure (String.mk (textDecode pt))
  | [] => .error .typeErr

/-- Message attached to the DecryptionError for an underlying cause. -/
def describeErr : JSErr → String
  | .typeErr => "Could not decrypt: TypeError"
  | .opErr => "Could not decrypt: OperationError"
  | .invalidId i => "Could not decrypt: Invalid ID format: " ++ i
  | .jsonErr => "Could not decrypt: SyntaxError"
  | .notFound => "Could not decrypt: not_found"
  | .decryptionErr m => m

/-- Model of EncryptionHelper.decrypt: the catch block converts any raw
failure into a DecryptionError carrying a description of the cause. -/
def decryptS (k : Key) (s : String) : Except JSErr String :=
  match decryptRaw k s with
  | .ok pt => .ok pt
  | .error e => .error (.decryptionErr (describeErr e))

/-- Nonces as produced by getRandomValues(new Uint8Array(12)): twelve
bytes, each below 256. -/
def ValidIV (iv : List Nat) : Prop := iv.length = 12 ∧ ∀ b ∈ iv, b < 256

instance (iv : List Nat) : Decidable (ValidIV iv) := by
  unfold ValidIV
  infer_instance

theorem char_toNat_lt (c : Char) : c.toNat < 1114112 := by
  have h := c.valid
  simp only [Char.toNat]
  rcases h with h | h
  · omega
  · omega

theorem textDecode_textEncode (cs : List Char) : textDecode (textEncode cs) = cs := by
  induction cs with
  | nil => rfl
  | cons c cs ih =>
    have hc : c.toNat / 65536 * 65536 + c.toNat / 256 % 256 * 256 + c.toNat % 256 = c.toNat := by
      omega
    simp only [textEncode, encChar, List.cons_append, List.nil_append, textDecode, hc,
      Char.ofNat_toNat]
    exact congrArg (c :: ·) ih

theorem encChar_lt (c : Char) : ∀ b ∈ encChar c, b < 256 := by
  have h := char_toNat_lt c
  simp only [encChar, List.mem_cons, List.not_mem_nil, or_false]
  rintro b (rfl | rfl | rfl) <;> omega

theorem textEncode_lt (cs : List Char) : ∀ b ∈ textEncode cs, b < 256 := by
  induction cs with
  | nil => simp [textEncode]
  | cons c cs ih =>
    simp only [textEncode, List.mem_append]
    rintro b (hb | hb)
    · exact encChar_lt c b hb
    · exact ih b hb

theorem hexVal_hexDigitChar (v : Nat) (h : v < 16) : hexVal (hexDigitChar v) = some v := by
  interval_cases v <;> decide

theorem hexDigitChar_ne_pipe (v : Nat) (h : v < 16) : hexDigitChar v ≠ '|' := by
  interval_cases v <;> decide

theorem natToHexF_small (f n : Nat) (h : n < 16) : natToHexF f n = [hexDigitChar n] := by
  cases f with
  | zero => rfl
  | succ f => rw [natToHexF, if_pos h]

theorem padStart2_natToHex (b : Nat) (h : b < 256) :
    padStart2 (natToHex b) = [hexDigitChar (b / 16), hexDigitChar (b % 16)] := by
  by_cases hb : b < 16
  · have h16 : b / 16 = 0 := by omega
    have hm : b % 16 = b := by omega
    rw [natToHex, natToHexF_small b b hb, h16, hm, padStart2]
    rfl
  · obtain ⟨f, rfl⟩ : ∃ f, b = f + 1 := ⟨b - 1, by omega⟩
    have h16 : (f + 1) / 16 < 16 := by omega
    rw [natToHex, natToHexF, if_neg hb, natToHexF_small f _ h16, padStart2]
    rfl

theorem toByte_pair (b : Nat) (h : b < 256) :
    toByte [hexDigitChar (b / 16), hexDigitChar (b % 16)] = b := by
  have h1 : b / 16 < 16 := by omega
  have h2 : b % 16 < 16 := by omega
  simp only [toByte, parseHex, hexVal_hexDigitChar _ h1, parseHexGo,
    hexVal_hexDigitChar _ h2, Option.getD_some]
  omega

theorem chunkmap_toHexStr (bs : List Nat) (h : ∀ b ∈ bs, b < 256) :
    (chunk2 (toHexStr bs)).map toByte = bs := by
  induction bs with
  | nil => rfl
  | cons b bs ih =>
    have hb : b < 256 := h b (List.mem_cons_self b bs)
    simp only [toHexStr, padStart2_natToHex b hb, List.cons_append, List.nil_append, chunk2,
      List.map_cons, toByte_pair b hb]
    exact congrArg (b :: ·) (ih (fun x hx => h x (List.mem_cons_of_mem b hx)))

theorem toHexStr_not_isEmpty (bs : List Nat) (h0 : bs ≠ []) (h : ∀ b ∈ bs, b < 256) :
    (toHexStr bs).isEmpty = false := by
  match bs, h0 with
  | b :: bs, _ =>
    have hb : b < 256 := h b (List.mem_cons_self b bs)
    simp only [toHexStr, padStart2_natToHex b hb]
    rfl

theorem fromHex_toHex (bs : List Nat) (h0 : bs ≠ []) (h : ∀ b ∈ bs, b < 256) :
    fromHexJS (toHexStr bs) = .ok bs := by
  rw [fromHexJS, toHexStr_not_isEmpty bs h0 h]
  simp only [Bool.false_eq_true, if_false]
  rw [chunkmap_toHexStr bs h]

theorem mem_natToHexF (f : Nat) : ∀ n, n < 16 ∨ n ≤ f →
    ∀ c ∈ natToHexF f n, ∃ v, v < 16 ∧ c = hexDigitChar v := by
  induction f with
  | zero =>
    intro n hn c hc
    have hn16 : n < 16 := by omega
    rw [natToHexF_small 0 n hn16] at hc
    exact ⟨n, hn16, List.mem_singleton.mp hc⟩
  | succ f ih =>
    intro n hn c hc
    by_cases h16 : n < 16
    · rw [natToHexF_small _ n h16] at hc
      exact ⟨n, h16, List.mem_singleton.mp hc⟩
    · rw [natToHexF, if_neg h16] at hc
      rcases List.mem_append.mp hc with hc | hc
      · exact ih (n / 16) (by omega) c hc
      · exact ⟨n % 16, by omega, List.mem_singleton.mp hc⟩

theorem mem_natToHex (n : Nat) : ∀ c ∈ natToHex n, ∃ v, v < 16 ∧ c = hexDigitChar v :=
  mem_natToHexF n n (Or.inr le_rfl)

theorem pipe_not_mem_toHexStr (bs : List Nat) : '|' ∉ toHexStr bs := by
  induction bs with
  | nil => simp [toHexStr]
  | cons b bs ih =>
    rw [toHexStr]
    intro hmem
    rcases List.mem_append.mp hmem with hc | hc
    · simp only [padStart2] at hc
      split at hc
      · rcases List.mem_append.mp hc with hc | hc
        · exact absurd (List.eq_of_mem_replicate hc) (by decide)
        · obtain ⟨v, hv, he⟩ := mem_natToHex b '|' hc
          exact hexDigitChar_ne_pipe v hv he.symm
      · obtain ⟨v, hv, he⟩ := mem_natToHex b '|' hc
        exact hexDigitChar_ne_pipe v hv he.symm
    · exact ih hc

theorem splitPipe_no_pipe (a : List Char) (ha : '|' ∉ a) : splitPipe a = [a] := by
  induction a with
  | nil => rfl
  | cons c cs ih =>
    have hc : ¬c = '|' := fun h => ha (h ▸ List.mem_cons_self c cs)
    rw [splitPipe]
    simp only [hc, ite_false]
    rw [ih (fun h => ha (List.mem_cons_of_mem c h))]

theorem splitPipe_append (a b : List Char) (ha : '|' ∉ a) :
    splitPipe (a ++ '|' :: b) = a :: splitPipe b := by
  induction a with
  | nil => simp [splitPipe]
  | cons c cs ih =>
    have hc : ¬c = '|' := fun h => ha (h ▸ List.mem_cons_self c cs)
    have hstep : (c :: cs) ++ '|' :: b = c :: (cs ++ '|' :: b) := rfl
    rw [hstep, splitPipe]
    simp only [hc, ite_false]
    rw [ih (fun h => ha (List.mem_cons_of_mem c h))]

theorem gcm_roundtrip (k : Key) (iv pt : List Nat) :
    gcmDecrypt k iv (some (gcmEncrypt k iv pt)) = .ok pt := by
  simp only [gcmDecrypt, gcmEncrypt, List.take_left, ite_true, List.drop_left]

theorem lenDigitsF_lt (f : Nat) : ∀ n, ∀ b ∈ lenDigitsF f n, b < 255 := by
  induction f with
  | zero =>
    intro n b hb
    simp [lenDigitsF] at hb
  | succ f ih =>
    intro n b hb
    rw [lenDigitsF] at hb
    split at hb
    · simp at hb
    · rcases List.mem_cons.mp hb with rfl | hb
      · omega
      · exact ih (n / 255) b hb

theorem lenDigits_lt (n : Nat) : ∀ b ∈ lenDigits n, b < 255 := lenDigitsF_lt n n

theorem gcmHeader_lt (k : Key) (iv : List Nat) (hiv : ∀ b ∈ iv, b < 256) :
    ∀ b ∈ gcmHeader k iv, b < 256 := by
  obtain ⟨m, p⟩ := k
  intro b hb
  have hrest : b ∈ lenCode p.length ++ textEncode p.data ++ iv → b < 256 := by
    intro hr
    rw [lenCode] at hr
    rcases List.mem_append.mp hr with hr | hr
    · rcases List.mem_append.mp hr with hr | hr
      · rcases List.mem_append.mp hr with hr | hr
        · exact lt_trans (lenDigits_lt _ b hr) (by norm_num)
        · rw [List.mem_singleton.mp hr]
          norm_num
      · exact textEncode_lt _ b hr
    · exact hiv b hr
  rw [gcmHeader] at hb
  cases m
  · rcases List.mem_cons.mp hb with hb0 | hb'
    · simp only at hb0
      omega
    · exact hrest hb'
  · rcases List.mem_cons.mp hb with hb0 | hb'
    · simp only at hb0
      omega
    · exact hrest hb'

theorem encryptS_data (k : Key) (iv : List Nat) (s : String) :
    (encryptS k iv s).data =
      toHexStr iv ++ '|' :: toHexStr (gcmEncrypt k iv (textEncode s.data)) := by
  simp only [encryptS, String.data_append, List.append_assoc]
  rfl

theorem decryptRaw_two_parts (k : Key) (s : String) (A B : List Char) (iv ct : List Nat)
    (hsplit : splitPipe s.data = [A, B]) (hA : fromHexJS A = .ok iv)
    (hB : fromHexJS B = .ok ct) :
    decryptRaw k s =
      Except.map (fun pt => String.mk (textDecode pt)) (gcmDecrypt k iv (some ct)) := by
  rw [decryptRaw, hsplit]
  simp only [List.mapM_cons, List.mapM_nil, hA, hB]
  show Except.bind (gcmDecrypt k iv (some ct)) (fun pt => Except.ok (String.mk (textDecode pt)))
    = Except.map (fun pt => String.mk (textDecode pt)) (gcmDecrypt k iv (some ct))
  cases gcmDecrypt k iv (some ct) <;> rfl

theorem decrypt_encrypt_ok (mode : Mode) (pass : String) (iv : List Nat) (s : String)
    (hiv : ValidIV iv) : decryptS ⟨mode, pass⟩ (encryptS ⟨mode, pass⟩ iv s) = .ok s := by
  obtain ⟨hlen, hlt⟩ := hiv
  set k : Key := ⟨mode, pass⟩
  have hiv0 : iv ≠ [] := by
    intro h
    rw [h] at hlen
    simp at hlen
  have hct : ∀ b ∈ gcmEncrypt k iv (textEncode s.data), b < 256 := by
    intro b hb
    rcases List.mem_append.mp hb with hb | hb
    · exact gcmHeader_lt k iv hlt b hb
    · exact textEncode_lt _ b hb
  have hct0 : gcmEncrypt k iv (textEncode s.data) ≠ [] := by
    simp [gcmEncrypt, gcmHeader]
  have hsplit : splitPipe (encryptS k iv s).data =
      [toHexStr iv, toHexStr (gcmEncrypt k iv (textEncode s.data))] := by
    rw [encryptS_data, splitPipe_append _ _ (pipe_not_mem_toHexStr iv),
      splitPipe_no_pipe _ (pipe_not_mem_toHexStr _)]
  rw [decryptS, decryptRaw_two_parts k _ _ _ iv (gcmEncrypt k iv (textEncode s.data)) hsplit
    (fromHex_toHex iv hiv0 hlt) (fromHex_toHex _ hct0 hct)]
  rw [gcm_roundtrip]
  show Except.ok (String.mk (textDecode (textEncode s.data))) = Except.ok s
  rw [textDecode_textEncode]

/-- Claim C1.  For every string s and every EncryptionHelper instance, in
either passphrase mode, decrypting the result of encrypting s with the
same instance returns s (the fresh nonce drawn by encrypt is quantified
as any valid twelve-byte value). -/
theorem decrypt_encrypt_roundtrip (mode : Mode) (pass : String) (iv : List Nat) (s : String)
    (hiv : ValidIV iv) : decryptS ⟨mode, pass⟩ (encryptS ⟨mode, pass⟩ iv s) = .ok s :=
  decrypt_encrypt_ok mode pass iv s hiv

theorem char_eq_of_toNat_eq {c d : Char} (h : c.toNat = d.toNat) : c = d :=
  Char.ofNat_toNat c ▸ Char.ofNat_toNat d ▸ congrArg Char.ofNat h

theorem encChar_inj {c d : Char} (h : encChar c = encChar d) : c = d := by
  have hc := char_toNat_lt c
  have hd := char_toNat_lt d
  simp only [encChar, List.cons.injEq, and_true] at h
  exact char_eq_of_toNat_eq (by omega)

theorem textEncode_length (cs : List Char) : (textEncode cs).length = 3 * cs.length := by
  induction cs with
  | nil => rfl
  | cons c cs ih =>
    simp only [textEncode, encChar, List.length_append, List.length_cons, ih]
    simp only [List.length_nil]
    omega

theorem textEncode_inj : ∀ {a b : List Char}, textEncode a = textEncode b → a = b := by
  intro a
  induction a with
  | nil =>
    intro b h
    cases b with
    | nil => rfl
    | cons c cs =>
      have := congrArg List.length h
      simp only [textEncode, List.length_nil, List.length_append] at this
      simp only [encChar, List.length_cons, List.length_nil] at this
      omega
  | cons c cs ih =>
    intro b h
    cases b with
    | nil =>
      have := congrArg List.length h
      simp only [textEncode, List.length_nil, List.length_append] at this
      simp only [encChar, List.length_cons, List.length_nil] at this
      omega
    | cons d ds =>
      simp only [textEncode] at h
      obtain ⟨h1, h2⟩ := List.append_inj h (by simp [encChar])
      rw [encChar_inj h1, ih h2]

/-- Value of a base-255 little-endian digit list. -/
def digitsVal : List Nat → Nat
  | [] => 0
  | d :: ds => d + 255 * digitsVal ds

theorem digitsVal_lenDigitsF (f : Nat) : ∀ n, n ≤ f → digitsVal (lenDigitsF f n) = n := by
  induction f with
  | zero =>
    intro n hn
    have : n = 0 := by omega
    rw [this]
    rfl
  | succ f ih =>
    intro n hn
    rw [lenDigitsF]
    split
    · next h =>
      rw [h]
      rfl
    · next h =>
      rw [digitsVal, ih (n / 255) (by omega)]
      omega

theorem digitsVal_lenDigits (n : Nat) : digitsVal (lenDigits n) = n :=
  digitsVal_lenDigitsF n n le_rfl

theorem terminated_inj : ∀ (d1 : List Nat) {d2 x y : List Nat}, (∀ b ∈ d1, b < 255) →
    (∀ b ∈ d2, b < 255) → d1 ++ 255 :: x = d2 ++ 255 :: y → d1 = d2 ∧ x = y := by
  intro d1
  induction d1 with
  | nil =>
    intro d2 x y _ h2 he
    cases d2 with
    | nil =>
      simp only [List.nil_append, List.cons.injEq] at he
      exact ⟨rfl, he.2⟩
    | cons e es =>
      simp only [List.nil_append, List.cons_append, List.cons.injEq] at he
      have := h2 e (List.mem_cons_self e es)
      omega
  | cons d ds ih =>
    intro d2 x y h1 he2 he
    cases d2 with
    | nil =>
      simp only [List.cons_append, List.nil_append, List.cons.injEq] at he
      have := h1 d (List.mem_cons_self d ds)
      omega
    | cons e es =>
      simp only [List.cons_append, List.cons.injEq] at he
      obtain ⟨hde, htail⟩ := he
      obtain ⟨hd2, hxy⟩ := ih (fun b hb => h1 b (List.mem_cons_of_mem d hb))
        (fun b hb => he2 b (List.mem_cons_of_mem e hb)) htail
      exact ⟨by rw [hde, hd2], hxy⟩

theorem gcmHeader_prefix_inj (k1 k2 : Key) (iv pt : List Nat)
    (h : (gcmEncrypt k1 iv pt).take (gcmHeader k2 iv).length = gcmHeader k2 iv) : k1 = k2 := by
  have hpre : gcmEncrypt k1 iv pt = gcmHeader k2 iv ++ (gcmEncrypt k1 iv pt).drop
      (gcmHeader k2 iv).length := by
    conv_lhs => rw [← List.take_append_drop (gcmHeader k2 iv).length (gcmEncrypt k1 iv pt)]
    rw [h]
  obtain ⟨m1, p1⟩ := k1
  obtain ⟨m2, p2⟩ := k2
  rw [gcmEncrypt, gcmHeader, gcmHeader] at hpre
  set rest := (gcmEncrypt ⟨m1, p1⟩ iv pt).drop
      (gcmHeader ⟨m2, p2⟩ iv).length with hrest
  simp only [List.cons_append, List.cons.injEq] at hpre
  obtain ⟨hmode, htail⟩ := hpre
  have hm : m1 = m2 := by
    cases m1 <;> cases m2 <;> first | rfl | (exfalso; simp only at hmode; omega)
  have hre : lenDigits p1.length ++ 255 :: (textEncode p1.data ++ iv ++ pt) =
      lenDigits p2.length ++ 255 :: (textEncode p2.data ++ iv ++ rest) := by
    have e1 : (lenCode p1.length ++ textEncode p1.data ++ iv) ++ pt =
        lenDigits p1.length ++ 255 :: (textEncode p1.data ++ iv ++ pt) := by
      simp [lenCode, List.append_assoc]
    have e2 : (lenCode p2.length ++ textEncode p2.data ++ iv) ++ rest =
        lenDigits p2.length ++ 255 :: (textEncode p2.data ++ iv ++ rest) := by
      simp [lenCode, List.append_assoc]
    rw [← e1, ← e2]
    exact htail
  obtain ⟨hlen, hbody⟩ := terminated_inj _ (lenDigits_lt _) (lenDigits_lt _) hre
  have hplen : p1.length = p2.length := by
    have := congrArg digitsVal hlen
    rwa [digitsVal_lenDigits, digitsVal_lenDigits] at this
  have henc : textEncode p1.data = textEncode p2.data ∧ iv ++ pt = iv ++ rest := by
    have hlength : (textEncode p1.data).length = (textEncode p2.data).length := by
      rw [textEncode_length, textEncode_length]
      simp only [String.length] at hplen
      rw [hplen]
    rw [List.append_assoc, List.append_assoc] at hbody
    exact List.append_inj hbody hlength
  have hdata : p1.data = p2.data := textEncode_inj henc.1
  have hp : p1 = p2 := by
    cases p1
    cases p2
    simp only at hdata
    rw [hdata]
  rw [hm, hp]

theorem decryptRaw_no_pipe (k : Key) (s : String) (h : '|' ∉ s.data) :
    decryptRaw k s = .error .typeErr := by
  rw [decryptRaw, splitPipe_no_pipe s.data h]
  by_cases hemp : s.data.isEmpty = true
  · have hfx : fromHexJS s.data = .error .typeErr := by
      rw [fromHexJS, if_pos hemp]
    simp only [List.mapM_cons, List.mapM_nil, hfx]
    rfl
  · have hfx : fromHexJS s.data = .ok ((chunk2 s.data).map toByte) := by
      rw [fromHexJS, if_neg hemp]
    simp only [List.mapM_cons, List.mapM_nil, hfx]
    rfl

/-- Claim C3, amended.  Every failure of decrypt is a DecryptionError and
the underlying exception never escapes; a string without the separator
(the empty string included) always fails this way, and so does a
ciphertext produced under a different passphrase.  (The amendment: a
string that is not a valid encryption does not always fail, because only
the first two separator-delimited segments are used — see the
counterexample.) -/
theorem decrypt_error_taxonomy :
    (∀ (k : Key) (s : String) (e : JSErr), decryptS k s = .error e →
      ∃ m, e = .decryptionErr m) ∧
    (∀ (k : Key) (s : String), '|' ∉ s.data →
      decryptS k s = .error (.decryptionErr (describeErr .typeErr))) ∧
    (∀ (m1 m2 : Mode) (p1 p2 : String) (iv : List Nat) (s : String), ValidIV iv → p1 ≠ p2 →
      decryptS ⟨m2, p2⟩ (encryptS ⟨m1, p1⟩ iv s) = .error (.decryptionErr (describeErr .opErr))) := by
  refine ⟨?_, ?_, ?_⟩
  · intro k s e he
    rw [decryptS] at he
    rcases hr : decryptRaw k s with e' | pt
    · rw [hr] at he
      exact ⟨describeErr e', by injection he with h; rw [← h]⟩
    · rw [hr] at he
      cases he
  · intro k s h
    rw [decryptS, decryptRaw_no_pipe k s h]
  · intro m1 m2 p1 p2 iv s hiv hp
    obtain ⟨hlen, hlt⟩ := hiv
    have hiv0 : iv ≠ [] := by
      intro h
      rw [h] at hlen
      simp at hlen
    have hct : ∀ b ∈ gcmEncrypt ⟨m1, p1⟩ iv (textEncode s.data), b < 256 := by
      intro b hb
      rcases List.mem_append.mp hb with hb | hb
      · exact gcmHeader_lt _ iv hlt b hb
      · exact textEncode_lt _ b hb
    have hct0 : gcmEncrypt ⟨m1, p1⟩ iv (textEncode s.data) ≠ [] := by
      simp [gcmEncrypt, gcmHeader]
    have hsplit : splitPipe (encryptS ⟨m1, p1⟩ iv s).data =
        [toHexStr iv, toHexStr (gcmEncrypt ⟨m1, p1⟩ iv (textEncode s.data))] := by
      rw [encryptS_data, splitPipe_append _ _ (pipe_not_mem_toHexStr iv),
        splitPipe_no_pipe _ (pipe_not_mem_toHexStr _)]
    rw [decryptS, decryptRaw_two_parts ⟨m2, p2⟩ _ _ _ iv
      (gcmEncrypt ⟨m1, p1⟩ iv (textEncode s.data)) hsplit
      (fromHex_toHex iv hiv0 hlt) (fromHex_toHex _ hct0 hct)]
    have hcond : ¬((gcmEncrypt ⟨m1, p1⟩ iv (textEncode s.data)).take
        (gcmHeader ⟨m2, p2⟩ iv).length = gcmHeader ⟨m2, p2⟩ iv) := by
      intro hc
      have := gcmHeader_prefix_inj ⟨m1, p1⟩ ⟨m2, p2⟩ iv (textEncode s.data) hc
      exact hp (congrArg Key.passphrase this)
    rw [gcmDecrypt]
    simp only [hcond, ite_false]
    rfl

theorem count_pipe_encryptS (k : Key) (iv : List Nat) (s : String) :
    (encryptS k iv s).data.count '|' = 1 := by
  have hA := List.count_eq_zero.mpr (pipe_not_mem_toHexStr iv)
  have hB := List.count_eq_zero.mpr
    (pipe_not_mem_toHexStr (gcmEncrypt k iv (textEncode s.data)))
  rw [encryptS_data, List.count_append, hA, List.count_cons_self, hB]

theorem decryptRaw_parts (k : Key) (s : String) (A B : List Char) (R : List (List Char))
    (iv ct : List Nat) (tl : List (List Nat)) (hsplit : splitPipe s.data = A :: B :: R)
    (hA : fromHexJS A = .ok iv) (hB : fromHexJS B = .ok ct)
    (hR : R.mapM fromHexJS = .ok tl) :
    decryptRaw k s =
      Except.map (fun pt => String.mk (textDecode pt)) (gcmDecrypt k iv (some ct)) := by
  rw [decryptRaw, hsplit]
  simp only [List.mapM_cons, hA, hB, hR]
  show Except.bind (gcmDecrypt k iv (some ct)) (fun pt => Except.ok (String.mk (textDecode pt)))
    = Except.map (fun pt => String.mk (textDecode pt)) (gcmDecrypt k iv (some ct))
  cases gcmDecrypt k iv (some ct) <;> rfl

theorem decrypt_extra_segment (k : Key) (iv : List Nat) (s : String) (hiv : ValidIV iv) :
    decryptS k (encryptS k iv s ++ "|x") = .ok s := by
  obtain ⟨hlen, hlt⟩ := hiv
  have hiv0 : iv ≠ [] := by
    intro h
    rw [h] at hlen
    simp at hlen
  have hct : ∀ b ∈ gcmEncrypt k iv (textEncode s.data), b < 256 := by
    intro b hb
    rcases List.mem_append.mp hb with hb | hb
    · exact gcmHeader_lt k iv hlt b hb
    · exact textEncode_lt _ b hb
  have hct0 : gcmEncrypt k iv (textEncode s.data) ≠ [] := by
    simp [gcmEncrypt, gcmHeader]
  have hdata : (encryptS k iv s ++ "|x").data =
      toHexStr iv ++ '|' :: (toHexStr (gcmEncrypt k iv (textEncode s.data)) ++ '|' :: ['x']) := by
    rw [String.data_append, encryptS_data]
    simp [List.append_assoc]
  have hsplit : splitPipe (encryptS k iv s ++ "|x").data =
      [toHexStr iv, toHexStr (gcmEncrypt k iv (textEncode s.data)), ['x']] := by
    rw [hdata, splitPipe_append _ _ (pipe_not_mem_toHexStr iv),
      splitPipe_append _ _ (pipe_not_mem_toHexStr _), splitPipe_no_pipe ['x'] (by decide)]
  rw [decryptS, decryptRaw_parts k _ _ _ [['x']] iv (gcmEncrypt k iv (textEncode s.data)) [[0]]
    hsplit (fromHex_toHex iv hiv0 hlt) (fromHex_toHex _ hct0 hct) (by decide)]
  rw [gcm_roundtrip]
  show Except.ok (String.mk (textDecode (textEncode s.data))) = Except.ok s
  rw [textDecode_textEncode]

/-- Concrete cipher instance used by counterexamples and witnesses. -/
def cexKey : Key := ⟨.raw, "p"⟩

/-- Concrete twelve-byte nonce used by counterexamples and witnesses. -/
def cexIV : List Nat := List.replicate 12 0

/-- A valid ciphertext with one extra separator-delimited segment
appended: not an output of encrypt, yet accepted by decrypt. -/
def cexStr : String := encryptS cexKey cexIV "a" ++ "|x"

/-- Claim C3 counterexample: cexStr is not a valid encryption of any
plaintext under the instance key — every encrypt output contains exactly
one separator while cexStr contains two and has a non-hex final segment
— yet decrypt succeeds on it instead of failing with DecryptionError. -/
theorem decrypt_error_taxonomy_cex :
    (∀ iv pt, cexStr ≠ encryptS cexKey iv pt) ∧ decryptS cexKey cexStr = .ok "a" := by
  constructor
  · intro iv pt h
    have h2 : cexStr.data.count '|' = (encryptS cexKey iv pt).data.count '|' := by rw [h]
    rw [count_pipe_encryptS] at h2
    have h3 : cexStr.data.count '|' = 2 := by
      rw [cexStr, String.data_append, List.count_append, count_pipe_encryptS]
      decide
    omega
  · rw [cexStr]
    exact decrypt_extra_segment cexKey cexIV "a" (by decide)

/-- Claim C1 witness: the round trip evaluated at a concrete instance,
nonce, and string. -/
theorem decrypt_encrypt_roundtrip_witness :
    decryptS ⟨Mode.raw, "p"⟩ (encryptS ⟨Mode.raw, "p"⟩ (List.replicate 12 0) "abc") = .ok "abc" :=
  decrypt_encrypt_roundtrip Mode.raw "p" (List.replicate 12 0) "abc" (by decide)

/-- JSON values occurring in the documents of this layer: strings,
integers, booleans and null (the flat fragment the claims exercise). -/
inductive JVal
  | jstr (s : String)
  | jnum (n : Int)
  | jbool (b : Bool)
  | jnull
  deriving DecidableEq, Repr

/-- Unary natural-number marker of the serialization model. -/
def natMark (n : Nat) : List Char := List.replicate n '#' ++ ['$']

/-- Length-prefixed string fragment of the serialization model. -/
def strCode (s : String) : List Char := natMark s.length ++ s.data

/-- Tagged value fragment of the serialization model. -/
def valCode : JVal → List Char
  | .jstr s => 's' :: strCode s
  | .jnum n => 'n' :: (if n < 0 then '-' else '+') :: natMark n.natAbs
  | .jbool b => 'b' :: [if b then 't' else 'f']
  | .jnull => ['z']

/-- Serialized field list of the serialization model. -/
def fieldsCode : List (String × JVal) → List Char
  | [] => []
  | (key, v) :: fs => strCode key ++ valCode v ++ fieldsCode fs

/-- Model of the platform JSON.stringify restricted to flat objects: an
idealized injective textual encoding whose computable parser below is
its exact inverse. -/
def jsonStringify (fs : List (String × JVal)) : String :=
  String.mk (natMark fs.length ++ fieldsCode fs)

/-- Parse the unary marker. -/
def readNatMark : List Char → Option (Nat × List Char)
  | [] => none
  | c :: cs =>
    if c = '$' then some (0, cs)
    else if c = '#' then (readNatMark cs).map (fun p => (p.1 + 1, p.2))
    else none

/-- Parse a fixed number of characters. -/
def readChars (n : Nat) (cs : List Char) : Option (List Char × List Char) :=
  if n ≤ cs.length then some (cs.take n, cs.drop n) else none

/-- Parse a length-prefixed string fragment. -/
def readStr (cs : List Char) : Option (String × List Char) := do
  let (n, cs) ← readNatMark cs
  let (a, cs) ← readChars n cs
  pure (String.mk a, cs)

/-- Parse a tagged value fragment. -/
def readVal : List Char → Option (JVal × List Char)
  | 's' :: cs => (readStr cs).map (fun p => (.jstr p.1, p.2))
  | 'n' :: sign :: cs => do
    let (m, cs) ← readNatMark cs
    if sign = '-' then pure (.jnum (-(m : Int)), cs)
    else if sign = '+' then pure (.jnum (m : Int), cs)
    else none
  | 'b' :: c :: cs =>
    if c = 't' then some (.jbool true, cs)
    else if c = 'f' then some (.jbool false, cs)
    else none
  | 'z' :: cs => some (.jnull, cs)
  | _ => none

/-- Parse a counted field list. -/
def readFields : Nat → List Char → Option (List (String × JVal) × List Char)
  | 0, cs => some ([], cs)
  | n + 1, cs => do
    let (key, cs) ← readStr cs
    let (v, cs) ← readVal cs
    let (fs, cs) ← readFields n cs
    pure ((key, v) :: fs, cs)

/-- Model of the platform JSON.parse restricted to flat objects: the
exact inverse of the stringify model; any other input fails, standing
for a SyntaxError. -/
def jsonParse (s : String) : Option (List (String × JVal)) := do
  let (n, cs) ← readNatMark s.data
  let (fs, rest) ← readFields n cs
  if rest.isEmpty then pure fs else none

theorem readNatMark_natMark (n : Nat) (rest : List Char) :
    readNatMark (natMark n ++ rest) = some (n, rest) := by
  induction n with
  | zero => rfl
  | succ n ih =>
    have hstep : natMark (n + 1) ++ rest = '#' :: (natMark n ++ rest) := by
      simp [natMark, List.replicate_succ]
    rw [hstep, readNatMark]
    simp only [ite_false, ite_true, ih, Option.map_some]
    rfl

theorem readStr_strCode (s : String) (rest : List Char) :
    readStr (strCode s ++ rest) = some (s, rest) := by
  rw [strCode, List.append_assoc, readStr, readNatMark_natMark]
  have hlen : s.length = s.data.length := rfl
  simp only [Option.bind_eq_bind, Option.some_bind, readChars, hlen, List.length_append,
    Nat.le_add_right, if_pos, List.take_left, List.drop_left]
  rfl

theorem readVal_valCode (v : JVal) (rest : List Char) :
    readVal (valCode v ++ rest) = some (v, rest) := by
  cases v with
  | jstr s =>
    rw [valCode]
    show readVal ('s' :: (strCode s ++ rest)) = _
    rw [readVal, readStr_strCode]
    rfl
  | jnum n =>
    rw [valCode]
    by_cases hn : n < 0
    · simp only [hn, ite_true]
      show readVal ('n' :: '-' :: (natMark n.natAbs ++ rest)) = _
      rw [readVal, readNatMark_natMark]
      simp only [Option.bind_eq_bind, Option.some_bind, ite_true]
      have : -(n.natAbs : Int) = n := by omega
      rw [this]
      rfl
    · simp only [hn, ite_false]
      show readVal ('n' :: '+' :: (natMark n.natAbs ++ rest)) = _
      rw [readVal, readNatMark_natMark]
      simp only [Option.bind_eq_bind, Option.some_bind]
      have h1 : ¬('+' = '-') := by decide
      simp only [h1, ite_false, ite_true]
      have : (n.natAbs : Int) = n := by omega
      rw [this]
      rfl
  | jbool b =>
    cases b <;> rfl
  | jnull => rfl

theorem readFields_fieldsCode (fs : List (String × JVal)) (rest : List Char) :
    readFields fs.length (fieldsCode fs ++ rest) = some (fs, rest) := by
  induction fs generalizing rest with
  | nil => rfl
  | cons kv fs ih =>
    obtain ⟨key, v⟩ := kv
    rw [List.length_cons, fieldsCode, List.append_assoc, List.append_assoc, readFields,
      readStr_strCode]
    simp only [Option.bind_eq_bind, Option.some_bind, readVal_valCode, ih]
    rfl

theorem jsonParse_stringify (fs : List (String × JVal)) :
    jsonParse (jsonStringify fs) = some fs := by
  rw [jsonParse, jsonStringify]
  show (do
    let (n, cs) ← readNatMark (natMark fs.length ++ fieldsCode fs)
    let (fs, rest) ← readFields n cs
    if rest.isEmpty then pure fs else none) = some fs
  rw [readNatMark_natMark]
  have hfc : fieldsCode fs = fieldsCode fs ++ [] := by simp
  simp only [Option.bind_eq_bind, Option.some_bind]
  rw [hfc, readFields_fieldsCode]
  rfl

/-- Model of String.startsWith over the character lists (the byte-wise
core implementation does not evaluate inside the kernel). -/
def strStartsWith (s pre : String) : Bool := pre.data.isPrefixOf s.data

/-- Split a character list at the first underscore (the indexOf slice
pair of parseFullId). -/
def splitFirstUnderscore : List Char → Option (List Char × List Char)
  | [] => none
  | c :: cs =>
    if c = '_' then some ([], cs)
    else (splitFirstUnderscore cs).map (fun p => (c :: p.1, p.2))

/-- Model of EncryptedPouch.parseFullId: table and id around the first
underscore, none when the identifier has no underscore. -/
def parseFullId (s : String) : Option (String × String) :=
  (splitFirstUnderscore s.data).map (fun p => (String.mk p.1, String.mk p.2))

/-- Decrypted document as delivered to listeners: logical id, revision
and the user-data fields recovered from the payload (the source spreads
the JSON object after the id and revision; payloads written through
encryptDoc never contain those two names). -/
structure DocM where
  id : String
  rev : String
  fields : List (String × JVal)
  deriving DecidableEq, Repr

/-- Projection of a stored record onto the top-level fields the scan and
change paths read: identifier, revision, payload field d (absent or
present) and the conflict-revision list (empty when absent). -/
structure StoredDoc where
  id : String
  rev : String
  d : Option String
  conflicts : List String
  deriving DecidableEq, Repr

/-- One row of an allDocs result: the row id and the included document
(absent rows are skipped by the scans). -/
structure Row where
  id : String
  doc : Option StoredDoc
  deriving DecidableEq, Repr

/-- Which optional listener callbacks were registered. -/
structure Flags where
  hasOnConflict : Bool
  hasOnError : Bool
  deriving DecidableEq, Repr

/-- DecryptionErrorEvent: the full identifier it concerns and the
underlying error (the raw record is omitted from the model). -/
structure ErrEv where
  docId : String
  err : JSErr
  deriving DecidableEq, Repr

/-- ConflictInfo as delivered to listeners. -/
structure ConflictM where
  docId : String
  table : String
  id : String
  currentRev : String
  conflictRevs : List String
  winner : DocM
  losers : List DocM
  deriving DecidableEq, Repr

/-- The listener calls an operation performs, one list entry per call,
in call order, per callback. -/
structure Emits where
  changeCalls : List (List (String × List DocM))
  deleteCalls : List (List (String × List String))
  errorCalls : List (List ErrEv)
  conflictCalls : List (List ConflictM)
  deriving DecidableEq, Repr

/-- No listener calls. -/
def noEmits : Emits := ⟨[], [], [], []⟩

/-- Point access to the store by identifier: models db.get(id). -/
def Store : Type := String → Option StoredDoc

/-- Access to a specific revision: models db.get(id, rev). -/
def RevGet : Type := String → String → Option StoredDoc

/-- Truthiness of the payload field as tested by the source (absent or
empty string are both falsy). -/
def hasPayload : Option String → Bool
  | none => false
  | some s => !(s == "")

/-- Model of EncryptedPouch.decryptDoc: parse the identifier (throwing
on failure), decrypt the payload, JSON-parse the plaintext and attach
the logical id and the revision. -/
def decryptDocM (k : Key) (sd : StoredDoc) : Except JSErr DocM :=
  match parseFullId sd.id with
  | none => .error (.invalidId sd.id)
  | some (_, logicalId) =>
    match sd.d with
    | none => .error .typeErr
    | some dstr =>
      match decryptS k dstr with
      | .error e => .error e
      | .ok pt =>
        match jsonParse pt with
        | none => .error .jsonErr
        | some fs => .ok ⟨logicalId, sd.rev, fs⟩

/-- Field partitioning loop of EncryptedPouch.encryptDoc: skip the
identifier and revision fields, pass other underscore fields through to
the record root, collect the remaining fields as the user data to be
encrypted. -/
def partitionFields : List (String × JVal) → List (String × JVal) × List (String × JVal)
  | [] => ([], [])
  | (key, v) :: rest =>
    if key = "_id" ∨ key = "_rev" then partitionFields rest
    else if strStartsWith key "_" then
      ((key, v) :: (partitionFields rest).1, (partitionFields rest).2)
    else ((partitionFields rest).1, (key, v) :: (partitionFields rest).2)

/-- Model of EncryptedPouch.encryptDoc: the stored record as the ordered
top-level field list — the identifier first (overwritten with the full
identifier), then the passed-through underscore fields, then the
payload field d holding the encrypted JSON of the user fields.  The
fresh nonce is the iv argument. -/
def encryptDocM (k : Key) (iv : List Nat) (doc : List (String × JVal)) (fullId : String) :
    List (String × JVal) :=
  let parts := partitionFields doc
  ("_id", .jstr fullId) :: parts.1
    ++ [("d", .jstr (encryptS k iv (jsonStringify parts.2)))]

/-- JavaScript truthiness of the JSON values of the model. -/
def truthy : JVal → Bool
  | .jstr s => !(s == "")
  | .jnum n => !(n == 0)
  | .jbool b => b
  | .jnull => false

/-- String-valued field access (non-string identifiers are outside the
model). -/
def getStrField (doc : List (String × JVal)) (key : String) : Option String :=
  match List.lookup key doc with
  | some (.jstr s) => some s
  | _ => none

/-- Identifier chosen by EncryptedPouch.put: the document id when it is
present and truthy, otherwise the freshly generated one (the random
UUID is passed explicitly as autoId). -/
def putDocId (doc : List (String × JVal)) (autoId : String) : String :=
  match getStrField doc "_id" with
  | some s => if s = "" then autoId else s
  | none => autoId

/-- Model of EncryptedPouch.put up to the store write: build the full
identifier, encrypt the document, and preserve a truthy revision by
setting it on the encrypted record (appended, as the record has no
revision field yet). -/
def putRecord (k : Key) (iv : List Nat) (table : String) (doc : List (String × JVal))
    (autoId : String) : List (String × JVal) :=
  let fullId := table ++ "_" ++ putDocId doc autoId
  let enc := encryptDocM k iv doc fullId
  match List.lookup "_rev" doc with
  | some v => if truthy v then enc ++ [("_rev", v)] else enc
  | none => enc

/-- One competing revision inside buildConflictInfo: fetch that revision
from the store and attempt to decrypt it; the right summand is the
error event pushed on failure of either step. -/
def fetchRev (k : Key) (revGet : RevGet) (fullId rev : String) : Sum DocM ErrEv :=
  match revGet fullId rev with
  | none => .inr ⟨fullId ++ "@" ++ rev, .notFound⟩
  | some sd =>
    match decryptDocM k sd with
    | .ok dm => .inl dm
    | .error e => .inr ⟨fullId ++ "@" ++ rev, e⟩

/-- The losers accumulated by buildConflictInfo: the competing revisions
that fetched and decrypted, in order. -/
def conflictLosers (k : Key) (revGet : RevGet) (fullId : String) (conflictRevs : List String) :
    List DocM :=
  (conflictRevs.map (fetchRev k revGet fullId)).filterMap
    (fun r => match r with | .inl dm => some dm | .inr _ => none)

/-- The error events accumulated by buildConflictInfo: one per competing
revision that failed to fetch or decrypt, in order. -/
def conflictErrs (k : Key) (revGet : RevGet) (fullId : String) (conflictRevs : List String) :
    List ErrEv :=
  (conflictRevs.map (fetchRev k revGet fullId)).filterMap
    (fun r => match r with | .inl _ => none | .inr e => some e)

/-- Model of EncryptedPouch.buildConflictInfo: parse the identifier
(throwing on failure), process every competing revision, report the
failures through the error channel when a listener is registered, and
return the ConflictInfo together with the onError calls made. -/
def buildConflictInfoM (k : Key) (revGet : RevGet) (fl : Flags) (fullId currentRev : String)
    (conflictRevs : List String) (winner : DocM) :
    Except JSErr (ConflictM × List (List ErrEv)) :=
  match parseFullId fullId with
  | none => .error (.invalidId fullId)
  | some (t, i) =>
    .ok (⟨fullId, t, i, currentRev, conflictRevs, winner,
        conflictLosers k revGet fullId conflictRevs⟩,
      if conflictErrs k revGet fullId conflictRevs ≠ [] ∧ fl.hasOnError
        then [conflictErrs k revGet fullId conflictRevs] else [])

/-- Model of EncryptedPouch.get: fetch by full identifier, decrypt, and
when conflicts are present and a conflict listener is registered,
reconstruct and report the conflict.  Every raw failure is caught and
yields null; the result is the returned document together with the
onError and onConflict calls made. -/
def getM (k : Key) (store : Store) (revGet : RevGet) (fl : Flags) (table id : String) :
    Option DocM × List (List ErrEv) × List (List ConflictM) :=
  let fullId := table ++ "_" ++ id
  match store fullId with
  | none => (none, [], [])
  | some sd =>
    match decryptDocM k sd with
    | .error _ => (none, [], [])
    | .ok dm =>
      if sd.conflicts ≠ [] ∧ fl.hasOnConflict then
        match buildConflictInfoM k revGet fl sd.id sd.rev sd.conflicts dm with
        | .ok (ci, calls) => (some dm, calls, [[ci]])
        | .error _ => (none, [], [])
      else (some dm, [], [])

/-- The try block of one loadAll scan row: decrypt, group under the
parsed table, and reconstruct a present conflict.  An exception anywhere
is the row error the catch block collects. -/
def tryScanRow (k : Key) (revGet : RevGet) (fl : Flags) (sd : StoredDoc) :
    Except JSErr (Option (String × DocM) × List ConflictM × List (List ErrEv)) := do
  let dm ← decryptDocM k sd
  let grouped := match parseFullId sd.id with
    | some (t, _) => some (t, dm)
    | none => none
  let confCalls ←
    if sd.conflicts ≠ [] then
      (buildConflictInfoM k revGet fl sd.id sd.rev sd.conflicts dm).map
        (fun p => ([p.1], p.2))
    else pure ([], [])
  pure (grouped, confCalls.1, confCalls.2)

/-- Append a document to its table batch, keeping first-insertion key
order (the JavaScript Map used by loadAll). -/
def upsert (m : List (String × List DocM)) (t : String) (dm : DocM) :
    List (String × List DocM) :=
  match m with
  | [] => [(t, [dm])]
  | (t', ds) :: rest => if t' = t then (t', ds ++ [dm]) :: rest else (t', ds) :: upsert rest t dm

/-- Accumulators of the loadAll scan loop: the per-table batches, the
collected error events, the collected conflicts, and the immediate
onError calls made inside buildConflictInfo. -/
structure ScanAcc where
  tbl : List (String × List DocM)
  errs : List ErrEv
  confs : List ConflictM
  calls : List (List ErrEv)
  deriving DecidableEq, Repr

/-- One row of the loadAll scan loop. -/
def stepRow (k : Key) (revGet : RevGet) (fl : Flags) (acc : ScanAcc) (row : Row) : ScanAcc :=
  match row.doc with
  | none => acc
  | some sd =>
    if strStartsWith row.id "_design/" then acc
    else if hasPayload sd.d then
      match tryScanRow k revGet fl sd with
      | .ok (grouped, confs, calls) =>
        ⟨(match grouped with
          | some (t, dm) => upsert acc.tbl t dm
          | none => acc.tbl),
          acc.errs, acc.confs ++ confs, acc.calls ++ calls⟩
      | .error e => ⟨acc.tbl, acc.errs ++ [⟨sd.id, e⟩], acc.confs, acc.calls⟩
    else acc

/-- The loadAll scan loop over the rows. -/
def scanGo (k : Key) (revGet : RevGet) (fl : Flags) (acc : ScanAcc) : List Row → ScanAcc
  | [] => acc
  | row :: rest => scanGo k revGet fl (stepRow k revGet fl acc row) rest

/-- Model of EncryptedPouch.loadAll given the result of the bulk scan:
a top-level scan failure is logged and swallowed; otherwise the scan
runs and dispatches at most one batched call per callback; in every
case the live subscription is then established (the returned Bool). -/
def loadAllM (k : Key) (revGet : RevGet) (fl : Flags) (scan : Except JSErr (List Row)) :
    Emits × Bool :=
  match scan with
  | .error _ => (noEmits, true)
  | .ok rows =>
    let a := scanGo k revGet fl ⟨[], [], [], []⟩ rows
    ({ changeCalls := if a.tbl ≠ [] then [a.tbl] else []
       deleteCalls := []
       errorCalls := a.calls ++ (if a.errs ≠ [] ∧ fl.hasOnError then [a.errs] else [])
       conflictCalls := if a.confs ≠ [] ∧ fl.hasOnConflict then [a.confs] else [] },
      true)

/-- One row of the getAll scan: prepend the contribution of this row to
the documents and errors collected from the later rows. -/
def getAllStep (k : Key) (tf : Option String) (row : Row) (acc : List DocM × List ErrEv) :
    List DocM × List ErrEv :=
  match row.doc with
  | none => acc
  | some sd =>
    if strStartsWith row.id "_design/" then acc
    else if hasPayload sd.d then
      match decryptDocM k sd with
      | .ok dm =>
        match parseFullId sd.id with
        | some (t, _) =>
          if (match tf with | none => true | some t' => t' = t) then (dm :: acc.1, acc.2)
          else acc
        | none => acc
      | .error e => (acc.1, ⟨sd.id, e⟩ :: acc.2)
    else acc

/-- The getAll scan loop: decrypted documents (filtered by the optional
table) and collected error events, in row order. -/
def getAllGo (k : Key) (tf : Option String) : List Row → List DocM × List ErrEv
  | [] => ([], [])
  | row :: rest => getAllStep k tf row (getAllGo k tf rest)

/-- Model of EncryptedPouch.getAll: the scan without conflict handling;
returns the documents and makes one batched onError call when errors
were collected and a listener is registered. -/
def getAllM (k : Key) (fl : Flags) (tf : Option String) (rows : List Row) :
    List DocM × List (List ErrEv) :=
  let (ds, es) := getAllGo k tf rows
  (ds, if es ≠ [] ∧ fl.hasOnError then [es] else [])

/-- One event of the live change feed. -/
structure ChangeEv where
  id : String
  deleted : Bool
  doc : Option StoredDoc
  deriving DecidableEq, Repr

/-- Model of EncryptedPouch.handleChange for one live change event:
design records are ignored; a deletion flag or a missing payload yields
one single-table delete notification when the identifier parses; an
upsert decrypts, reconstructs a present conflict, and dispatches the
change call followed by the batched error and conflict calls. -/
def handleChangeM (k : Key) (revGet : RevGet) (fl : Flags) (ch : ChangeEv) : Emits :=
  if strStartsWith ch.id "_design/" then noEmits
  else
    let payload := match ch.doc with
      | none => none
      | some sd => sd.d
    if ch.deleted || !hasPayload payload then
      match parseFullId ch.id with
      | some (t, i) => { noEmits with deleteCalls := [[(t, [i])]] }
      | none => noEmits
    else
      match ch.doc with
      | none => noEmits
      | some sd =>
        match tryScanRow k revGet fl sd with
        | .ok (grouped, confs, calls) =>
          { changeCalls := match grouped with
              | some (t, dm) => [[(t, [dm])]]
              | none => []
            deleteCalls := []
            errorCalls := calls
            conflictCalls := if confs ≠ [] ∧ fl.hasOnConflict then [confs] else [] }
        | .error e =>
          { noEmits with
            errorCalls := if fl.hasOnError then [[⟨sd.id, e⟩]] else [] }

/-- Sync-level errors of the model. -/
inductive SyncErr
  | notConnected (msg : String)
  | timeout (msg : String)
  deriving DecidableEq, Repr

/-- Connection state relevant to the sync guards: the configured remote
URL and whether a sync handle exists.  A successful connectRemote sets
both, disconnectRemote clears both; in the initial state both are
absent. -/
structure ConnState where
  remoteUrl : Option String
  syncHandler : Bool
  deriving DecidableEq, Repr

/-- State before any connectRemote. -/
def initialConn : ConnState := ⟨none, false⟩

/-- Outcome of the syncNow guard phase. -/
inductive SyncNowStart
  | rejected (e : SyncErr)
  | started (url : String)
  deriving DecidableEq, Repr

/-- Model of the guard of EncryptedPouch.syncNow: reject when no remote
URL is configured, otherwise start the one-shot sync against it. -/
def syncNowM (st : ConnState) : SyncNowStart :=
  match st.remoteUrl with
  | none => .rejected (.notConnected
      "No remote connection configured. Call connectRemote() first.")
  | some url => .started url

/-- Outcome of EncryptedPouch.deleteAllAndSync up to the push wait. -/
inductive DelSyncOutcome
  | rejected (e : SyncErr)
  | resolvedImmediately
  | deletedAndWaiting (n : Nat)
  deriving DecidableEq, Repr

/-- Model of EncryptedPouch.deleteAllAndSync up to the push wait: fail
fast without a sync handle; bulk-delete the non-design rows; resolve
immediately when there is nothing to delete, otherwise wait for the
push counter to reach the number deleted. -/
def deleteAllAndSyncM (st : ConnState) (rows : List Row) : DelSyncOutcome :=
  if st.syncHandler then
    let dels := rows.filter (fun r => !strStartsWith r.id "_design/")
    if dels.isEmpty then .resolvedImmediately
    else .deletedAndWaiting dels.length
  else .rejected (.notConnected
      "Sync is not connected. Call connectRemote() first or use deleteAllLocal() instead.")

/-- Claim C7.  Without a prior successful connectRemote (the initial
connection state), syncNow and deleteAllAndSync both reject with the
SyncNotConnectedError of the error taxonomy; and with a live sync
handle but zero non-design rows to delete, deleteAllAndSync resolves
immediately, without waiting for any sync activity. -/
theorem sync_guards (st : ConnState) (rows : List Row) (hcon : st = initialConn) :
    (∃ m, syncNowM st = .rejected (.notConnected m)) ∧
    (∃ m, deleteAllAndSyncM st rows = .rejected (.notConnected m)) ∧
    (∀ (st' : ConnState) (rows' : List Row), st'.syncHandler = true →
      rows'.filter (fun r => !strStartsWith r.id "_design/") = [] →
      deleteAllAndSyncM st' rows' = .resolvedImmediately) := by
  subst hcon
  refine ⟨⟨_, rfl⟩, ⟨_, rfl⟩, ?_⟩
  intro st' rows' hh hfilter
  rw [deleteAllAndSyncM]
  simp only [hh, ite_true, hfilter, List.isEmpty_nil]

/-- Claim C7 witness: the guards evaluated at the initial state and a
concrete one-row store. -/
theorem sync_guards_witness :
    (∃ m, syncNowM initialConn = .rejected (.notConnected m)) ∧
    (∃ m, deleteAllAndSyncM initialConn [⟨"t_x", none⟩] = .rejected (.notConnected m)) ∧
    (∀ (st' : ConnState) (rows' : List Row), st'.syncHandler = true →
      rows'.filter (fun r => !strStartsWith r.id "_design/") = [] →
      deleteAllAndSyncM st' rows' = .resolvedImmediately) :=
  sync_guards initialConn [⟨"t_x", none⟩] rfl

/-- Claim C8.  loadAll never propagates a top-level failure of the bulk
scan to its caller: on a scan error it makes no listener calls, and the
live subscription is established in every case, scan success or
failure. -/
theorem loadAll_swallows_scan_failure (k : Key) (revGet : RevGet) (fl : Flags)
    (scan : Except JSErr (List Row)) :
    (loadAllM k revGet fl scan).2 = true ∧
    (∀ e, scan = .error e → (loadAllM k revGet fl scan).1 = noEmits) := by
  constructor
  · cases scan <;> rfl
  · intro e he
    rw [he]
    rfl

theorem partitionFields_fst (doc : List (String × JVal)) :
    (partitionFields doc).1 =
      doc.filter (fun kv => (!(kv.1 == "_id" || kv.1 == "_rev")) && strStartsWith kv.1 "_") := by
  induction doc with
  | nil => rfl
  | cons kv rest ih =>
    obtain ⟨key, v⟩ := kv
    rw [partitionFields]
    by_cases h1 : key = "_id" ∨ key = "_rev"
    · have hb : (key == "_id" || key == "_rev") = true := by
        rcases h1 with rfl | rfl <;> simp
      have hpv : (!(key == "_id" || key == "_rev") && strStartsWith key "_") = false := by
        rw [hb]
        rfl
      simp only [h1, ite_true]
      simp only [List.filter_cons, hpv, Bool.false_eq_true, if_false]
      exact ih
    · by_cases h2 : strStartsWith key "_"
      · have hb : (key == "_id" || key == "_rev") = false := by
          push_neg at h1
          simp [h1.1, h1.2]
        have hpv : (!(key == "_id" || key == "_rev") && strStartsWith key "_") = true := by
          rw [hb, h2]
          rfl
        simp only [h1, ite_false, h2, ite_true]
        simp only [List.filter_cons, hpv, if_true]
        exact congrArg (List.cons (key, v)) ih
      · have hb : (key == "_id" || key == "_rev") = false := by
          push_neg at h1
          simp [h1.1, h1.2]
        have h2f : strStartsWith key "_" = false := by
          simpa using h2
        have hpv : (!(key == "_id" || key == "_rev") && strStartsWith key "_") = false := by
          rw [hb, h2f]
          rfl
        simp only [h1, ite_false, h2f, Bool.false_eq_true, if_false]
        simp only [List.filter_cons, hpv, Bool.false_eq_true, if_false]
        exact ih

theorem partitionFields_snd (doc : List (String × JVal)) :
    (partitionFields doc).2 = doc.filter (fun kv => !strStartsWith kv.1 "_") := by
  induction doc with
  | nil => rfl
  | cons kv rest ih =>
    obtain ⟨key, v⟩ := kv
    rw [partitionFields]
    by_cases h1 : key = "_id" ∨ key = "_rev"
    · have hs : strStartsWith key "_" = true := by
        rcases h1 with rfl | rfl <;> decide
      have hpv : (!strStartsWith key "_") = false := by
        rw [hs]
        rfl
      simp only [h1, ite_true]
      simp only [List.filter_cons, hpv, Bool.false_eq_true, if_false]
      exact ih
    · by_cases h2 : strStartsWith key "_"
      · have hpv : (!strStartsWith key "_") = false := by
          rw [h2]
          rfl
        simp only [h1, ite_false, h2, ite_true]
        simp only [List.filter_cons, hpv, Bool.false_eq_true, if_false]
        exact ih
      · have h2f : strStartsWith key "_" = false := by
          simpa using h2
        have hpv : (!strStartsWith key "_") = true := by
          rw [h2f]
          rfl
        simp only [h1, ite_false, h2f, Bool.false_eq_true, if_false]
        simp only [List.filter_cons, hpv, if_true]
        exact congrArg (List.cons (key, v)) ih

theorem lookup_append_of_none (l l2 : List (String × JVal)) (key : String)
    (h : ∀ kv ∈ l, (key == kv.1) = false) :
    List.lookup key (l ++ l2) = List.lookup key l2 := by
  induction l with
  | nil => rfl
  | cons kv rest ih =>
    rw [List.cons_append, List.lookup]
    rw [h kv (List.mem_cons_self kv rest)]
    exact ih (fun kv' h' => h kv' (List.mem_cons_of_mem kv h'))

/-- Claim C2, amended.  Writing a document through put stores a record
whose top level contains none of the non-underscore field names of the
document except possibly the payload field name d itself (which always
holds the ciphertext, never the user value — the one exception the
counterexample forces); every underscore field other than the identifier
and revision is passed through unchanged; the identifier field is
overwritten with the full identifier; and the user fields are exactly
what decrypting and parsing the payload field recovers. -/
theorem put_partitions_fields (k : Key) (iv : List Nat) (table : String)
    (doc : List (String × JVal)) (autoId : String) (hiv : ValidIV iv) :
    (∀ key ∈ doc.map Prod.fst, ¬strStartsWith key "_" → key ≠ "d" →
      key ∉ (putRecord k iv table doc autoId).map Prod.fst) ∧
    (∀ kv ∈ doc, strStartsWith kv.1 "_" → kv.1 ≠ "_id" → kv.1 ≠ "_rev" →
      kv ∈ putRecord k iv table doc autoId) ∧
    List.lookup "_id" (putRecord k iv table doc autoId) =
      some (.jstr (table ++ "_" ++ putDocId doc autoId)) ∧
    (∃ ct, List.lookup "d" (putRecord k iv table doc autoId) = some (.jstr ct) ∧
      (match decryptS k ct with
        | .ok pt => jsonParse pt
        | .error _ => none) = some (doc.filter (fun kv => !strStartsWith kv.1 "_"))) := by
  obtain ⟨mode, pass⟩ := k
  have hroot : ∀ kv ∈ (partitionFields doc).1, strStartsWith kv.1 "_" = true ∧ kv ∈ doc := by
    intro kv hkv
    rw [partitionFields_fst] at hkv
    have h1 := List.of_mem_filter hkv
    have h2 := List.mem_of_mem_filter hkv
    simp only [Bool.and_eq_true] at h1
    exact ⟨h1.2, h2⟩
  have hshape : putRecord ⟨mode, pass⟩ iv table doc autoId =
      ("_id", .jstr (table ++ "_" ++ putDocId doc autoId)) ::
        ((partitionFields doc).1 ++
          [("d", .jstr (encryptS ⟨mode, pass⟩ iv (jsonStringify (partitionFields doc).2)))] ++
          (match List.lookup "_rev" doc with
            | some v => if truthy v then [("_rev", v)] else []
            | none => [])) := by
    rw [putRecord, encryptDocM]
    rcases hlk : List.lookup "_rev" doc with _ | v
    · simp
    · by_cases ht : truthy v
      · simp [ht, List.append_assoc]
      · simp [ht]
  constructor
  · intro key hkey hku hkd habs
    rw [hshape] at habs
    simp only [List.map_cons, List.map_append, List.mem_cons, List.mem_append] at habs
    rcases habs with h1 | (h2 | h3) | h4
    · rw [h1] at hku
      exact hku (by decide)
    · obtain ⟨kv, hkv, hfst⟩ := List.mem_map.mp h2
      obtain ⟨hst, _⟩ := hroot kv hkv
      rw [← hfst] at hku
      exact hku hst
    · simp only [List.map_cons, List.map_nil, List.mem_cons, List.not_mem_nil,
        or_false] at h3
      exact hkd h3
    · rcases hlk : List.lookup "_rev" doc with _ | v <;> rw [hlk] at h4
      · simp at h4
      · by_cases ht : truthy v <;> simp [ht] at h4
        rw [h4] at hku
        exact hku (by decide)
  constructor
  · intro kv hkv hst hid hrev
    rw [hshape]
    have hfilter : kv ∈ (partitionFields doc).1 := by
      rw [partitionFields_fst]
      refine List.mem_filter.mpr ⟨hkv, ?_⟩
      simp only [Bool.and_eq_true, Bool.not_eq_true', Bool.or_eq_false_iff]
      refine ⟨⟨?_, ?_⟩, hst⟩
      · simpa using hid
      · simpa using hrev
    exact List.mem_cons_of_mem _ (List.mem_append_left _ (List.mem_append_left _ hfilter))
  constructor
  · rw [hshape]
    simp [List.lookup]
  · refine ⟨encryptS ⟨mode, pass⟩ iv (jsonStringify (partitionFields doc).2), ?_, ?_⟩
    · rw [hshape]
      simp only [List.lookup, show (("d" : String) == "_id") = false from by decide]
      rw [List.append_assoc, lookup_append_of_none]
      · simp [List.lookup]
      · intro kv hkv
        obtain ⟨hst, _⟩ := hroot kv hkv
        simp only [beq_eq_false_iff_ne, ne_eq]
        intro hcontra
        rw [← hcontra] at hst
        simp [strStartsWith] at hst
    · rw [decrypt_encrypt_ok mode pass iv _ hiv]
      show jsonParse (jsonStringify (partitionFields doc).2) =
        some (doc.filter (fun kv => !strStartsWith kv.1 "_"))
      rw [jsonParse_stringify, partitionFields_snd]

/-- Claim C2 witness: the partitioning at the concrete document of the
specification scenario. -/
theorem put_partitions_fields_witness :
    List.lookup "_id" (putRecord cexKey cexIV "expenses"
        [("_id", .jstr "x"), ("amount", .jnum 15), ("secret", .jstr "y")] "gen") =
      some (.jstr ("expenses" ++ "_" ++ putDocId
        [("_id", .jstr "x"), ("amount", .jnum 15), ("secret", .jstr "y")] "gen")) :=
  (put_partitions_fields cexKey cexIV "expenses"
    [("_id", .jstr "x"), ("amount", .jnum 15), ("secret", .jstr "y")] "gen" (by decide)).2.2.1

/-- Claim C2 counterexample: a user field named d does not start with
the underscore prefix, yet its name is present at the top level of the
stored record (holding the ciphertext in place of the user value). -/
theorem put_partitions_fields_cex :
    ("d" ∈ ([("d", JVal.jstr "y")] : List (String × JVal)).map Prod.fst ∧
      (strStartsWith "d" "_") = false) ∧
    "d" ∈ (putRecord cexKey cexIV "t" [("d", JVal.jstr "y")] "x").map Prod.fst := by
  refine ⟨⟨by decide, by decide⟩, ?_⟩
  decide

theorem sum_split_lengths (l : List (Sum DocM ErrEv)) :
    (l.filterMap (fun r => match r with | .inl dm => some dm | .inr _ => none)).length +
      (l.filterMap (fun r => match r with | .inl _ => none | .inr e => some e)).length
      = l.length := by
  induction l with
  | nil => rfl
  | cons r rest ih =>
    cases r with
    | inl dm =>
      simp only [List.filterMap_cons, List.length_cons]
      omega
    | inr e =>
      simp only [List.filterMap_cons, List.length_cons]
      omega

theorem filterMap_inl_length (revs : List String) (g : String → Sum DocM ErrEv) :
    ((revs.map g).filterMap
        (fun r => match r with | .inl dm => some dm | .inr _ => none)).length =
      (revs.filter (fun rev =>
        match g rev with | .inl _ => true | .inr _ => false)).length := by
  induction revs with
  | nil => rfl
  | cons rev rest ih =>
    cases hg : g rev with
    | inl dm =>
      simp only [List.map_cons, List.filterMap_cons, List.filter_cons, hg, List.length_cons,
        if_true]
      omega
    | inr e =>
      simp only [List.map_cons, List.filterMap_cons, List.filter_cons, hg, Bool.false_eq_true,
        if_false]
      exact ih

theorem conflict_info_spec (k : Key) (revGet : RevGet) (fl : Flags)
    (fullId currentRev : String) (revs : List String) (winner : DocM) (t i : String)
    (hparse : parseFullId fullId = some (t, i)) :
    buildConflictInfoM k revGet fl fullId currentRev revs winner =
      .ok (⟨fullId, t, i, currentRev, revs, winner, conflictLosers k revGet fullId revs⟩,
        if conflictErrs k revGet fullId revs ≠ [] ∧ fl.hasOnError
          then [conflictErrs k revGet fullId revs] else []) ∧
    (conflictLosers k revGet fullId revs).length = (revs.filter (fun rev =>
      match fetchRev k revGet fullId rev with | .inl _ => true | .inr _ => false)).length ∧
    (conflictLosers k revGet fullId revs).length ≤ revs.length ∧
    (if conflictErrs k revGet fullId revs ≠ [] ∧ fl.hasOnError
        then [conflictErrs k revGet fullId revs] else []).flatten.length =
      (if fl.hasOnError then revs.length - (conflictLosers k revGet fullId revs).length
        else 0) := by
  have hsum : (conflictLosers k revGet fullId revs).length +
      (conflictErrs k revGet fullId revs).length = revs.length := by
    rw [conflictLosers, conflictErrs]
    have h := sum_split_lengths (revs.map (fetchRev k revGet fullId))
    rwa [List.length_map] at h
  refine ⟨?_, ?_, ?_, ?_⟩
  · rw [buildConflictInfoM, hparse]
  · exact filterMap_inl_length revs (fetchRev k revGet fullId)
  · exact Nat.le.intro hsum
  · by_cases hreg : fl.hasOnError = true
    · by_cases he : conflictErrs k revGet fullId revs = []
      · simp only [he, ne_eq, not_true_eq_false, false_and, if_false, hreg, if_true,
          List.flatten_nil, List.length_nil]
        rw [he] at hsum
        simp only [List.length_nil] at hsum
        omega
      · simp only [ne_eq, he, not_false_eq_true, hreg, and_true, if_true]
        simp only [List.flatten, List.append_nil]
        omega
    · have hreg' : fl.hasOnError = false := by
        simpa using hreg
      simp only [hreg', and_false, if_false, Bool.false_eq_true, List.flatten_nil,
        List.length_nil]

/-- Claim C6.  For a document whose current version decrypted (hence its
identifier parses), conflict-info construction never throws: it returns
the info whose losers are exactly the competing revisions that fetch
and decrypt, paired with the supplied winner, and the other failures
are reported through the error channel exactly when an error listener
is registered, never aborting the construction. -/
theorem conflict_info_construction (k : Key) (revGet : RevGet) (fl : Flags)
    (fullId currentRev : String) (revs : List String) (winner : DocM) (t i : String)
    (hparse : parseFullId fullId = some (t, i)) :
    buildConflictInfoM k revGet fl fullId currentRev revs winner =
      .ok (⟨fullId, t, i, currentRev, revs, winner, conflictLosers k revGet fullId revs⟩,
        if conflictErrs k revGet fullId revs ≠ [] ∧ fl.hasOnError
          then [conflictErrs k revGet fullId revs] else []) ∧
    (conflictLosers k revGet fullId revs).length = (revs.filter (fun rev =>
      match fetchRev k revGet fullId rev with | .inl _ => true | .inr _ => false)).length ∧
    (conflictLosers k revGet fullId revs).length ≤ revs.length ∧
    (if conflictErrs k revGet fullId revs ≠ [] ∧ fl.hasOnError
        then [conflictErrs k revGet fullId revs] else []).flatten.length =
      (if fl.hasOnError then revs.length - (conflictLosers k revGet fullId revs).length
        else 0) :=
  conflict_info_spec k revGet fl fullId currentRev revs winner t i hparse

/-- Concrete decryptable payload for the witnesses. -/
def cexGoodD : String := encryptS cexKey cexIV (jsonStringify [("amount", JVal.jnum 15)])

/-- Concrete per-revision store: revision 2-a decrypts, revision 2-b
holds an undecryptable payload. -/
def cexRevGet : RevGet := fun s rev =>
  if s = "t_x" ∧ rev = "2-a" then some ⟨"t_x", "2-a", some cexGoodD, []⟩
  else if s = "t_x" ∧ rev = "2-b" then some ⟨"t_x", "2-b", some "zz", []⟩
  else none

/-- Claim C6 witness: construction at a concrete document with two
competing revisions of which one decrypts. -/
theorem conflict_info_construction_witness :
    ∃ p, buildConflictInfoM cexKey cexRevGet ⟨true, true⟩ "t_x" "1-a" ["2-a", "2-b"]
      ⟨"x", "1-a", []⟩ = .ok p := by
  obtain ⟨h, -⟩ :=
    conflict_info_construction cexKey cexRevGet ⟨true, true⟩ "t_x" "1-a" ["2-a", "2-b"]
      ⟨"x", "1-a", []⟩ "t" "x" rfl
  exact ⟨_, h⟩

theorem decryptDocM_ok_parse {k : Key} {sd : StoredDoc} {dm : DocM}
    (h : decryptDocM k sd = .ok dm) : ∃ p, parseFullId sd.id = some p := by
  rw [decryptDocM] at h
  rcases hp : parseFullId sd.id with _ | p
  · rw [hp] at h
    simp at h
  · exact ⟨p, rfl⟩

theorem conflictErrs_ne_exists (k : Key) (revGet : RevGet) (fullId : String)
    (revs : List String) (h : conflictErrs k revGet fullId revs ≠ []) :
    ∃ rev ∈ revs, ∃ e, fetchRev k revGet fullId rev = .inr e := by
  rw [conflictErrs] at h
  by_contra hc
  push_neg at hc
  apply h
  rw [List.filterMap_eq_nil_iff]
  intro r hr
  obtain ⟨rev, hrev, rfl⟩ := List.mem_map.mp hr
  cases hg : fetchRev k revGet fullId rev with
  | inl dm => rfl
  | inr e =>
    exact absurd hg (hc rev hrev e)

/-- Claim C9, amended.  get never throws and never propagates a
failure: it returns null exactly when the record is absent or fails to
decrypt; it makes no error-listener call except in one sub-path — when
the record is present, decrypts, carries conflicts, a conflict listener
is registered, an error listener is registered, and some competing
revision fails to fetch or decrypt. -/
theorem get_failure_behavior (k : Key) (store : Store) (revGet : RevGet) (fl : Flags)
    (table id : String) :
    ((getM k store revGet fl table id).1 = none ↔
      (store (table ++ "_" ++ id) = none ∨
        ∃ sd, store (table ++ "_" ++ id) = some sd ∧ ∀ dm, decryptDocM k sd ≠ .ok dm)) ∧
    ((getM k store revGet fl table id).2.1 ≠ [] →
      fl.hasOnConflict = true ∧ fl.hasOnError = true ∧
      ∃ sd dm, store (table ++ "_" ++ id) = some sd ∧ decryptDocM k sd = .ok dm ∧
        sd.conflicts ≠ [] ∧
        ∃ rev ∈ sd.conflicts, ∃ e, fetchRev k revGet sd.id rev = .inr e) := by
  rcases hs : store (table ++ "_" ++ id) with _ | sd
  · refine ⟨?_, ?_⟩
    · simp [getM, hs]
    · simp [getM, hs]
  · rcases hd : decryptDocM k sd with e | dm
    · refine ⟨?_, ?_⟩
      · have hgm : getM k store revGet fl table id = (none, [], []) := by
          simp only [getM, hs, hd]
        rw [hgm]
        constructor
        · intro _
          refine Or.inr ⟨sd, rfl, fun dm hdm => ?_⟩
          rw [hd] at hdm
          cases hdm
        · intro _
          rfl
      · simp [getM, hs, hd]
    · obtain ⟨⟨t0, i0⟩, hp⟩ := decryptDocM_ok_parse hd
      have hbuild := (conflict_info_spec k revGet fl sd.id sd.rev sd.conflicts dm
        t0 i0 hp).1
      by_cases hcf : sd.conflicts ≠ [] ∧ fl.hasOnConflict = true
      · have hgm : getM k store revGet fl table id =
            (some dm,
              (if conflictErrs k revGet sd.id sd.conflicts ≠ [] ∧ fl.hasOnError
                then [conflictErrs k revGet sd.id sd.conflicts] else []),
              [[⟨sd.id, t0, i0, sd.rev, sd.conflicts, dm,
                conflictLosers k revGet sd.id sd.conflicts⟩]]) := by
          simp only [getM, hs, hd]
          rw [if_pos hcf, hbuild]
        refine ⟨?_, ?_⟩
        · rw [hgm]
          constructor
          · intro hnone
            simp at hnone
          · rintro (hnone | ⟨sd', hsd', hne⟩)
            · cases hnone
            · injection hsd' with he
              subst he
              exact absurd hd (hne dm)
        · intro hcalls
          rw [hgm] at hcalls
          by_cases herr : conflictErrs k revGet sd.id sd.conflicts ≠ [] ∧ fl.hasOnError = true
          · obtain ⟨rev, hrev, e, hg⟩ := conflictErrs_ne_exists k revGet sd.id sd.conflicts
              herr.1
            exact ⟨hcf.2, herr.2, sd, dm, rfl, hd, hcf.1, rev, hrev, e, hg⟩
          · rw [if_neg herr] at hcalls
            exact (hcalls rfl).elim
      · have hgm : getM k store revGet fl table id = (some dm, [], []) := by
          simp only [getM, hs, hd]
          rw [if_neg hcf]
        refine ⟨?_, ?_⟩
        · rw [hgm]
          constructor
          · intro hnone
            simp at hnone
          · rintro (hnone | ⟨sd', hsd', hne⟩)
            · cases hnone
            · injection hsd' with he
              subst he
              exact absurd hd (hne dm)
        · intro hcalls
          rw [hgm] at hcalls
          exact (hcalls rfl).elim

/-- Concrete store: document t_x is present, decrypts, and carries one
competing revision that does not decrypt. -/
def cexStore : Store := fun s =>
  if s = "t_x" then some ⟨"t_x", "1-a", some cexGoodD, ["2-b"]⟩ else none

set_option maxRecDepth 20000 in
/-- Claim C9 counterexample: with both optional listeners registered, a
get of an existing decryptable document whose competing revision fails
to decrypt returns the document and invokes the error listener,
refuting that get never invokes it. -/
theorem get_failure_behavior_cex :
    (getM cexKey cexStore cexRevGet ⟨true, true⟩ "t" "x").2.1 ≠ [] ∧
    (getM cexKey cexStore cexRevGet ⟨true, true⟩ "t" "x").1.isSome = true := by
  refine ⟨?_, ?_⟩ <;> decide

theorem stepRow_skip (k : Key) (revGet : RevGet) (fl : Flags) (acc : ScanAcc) (row : Row)
    (sd : StoredDoc) (hdoc : row.doc = some sd)
    (hdesign : strStartsWith row.id "_design/" = false) (hpay : hasPayload sd.d = false) :
    stepRow k revGet fl acc row = acc := by
  rw [stepRow, hdoc]
  simp only [hdesign, Bool.false_eq_true, if_false, hpay]

theorem scanGo_append (k : Key) (revGet : RevGet) (fl : Flags) (l1 l2 : List Row)
    (acc : ScanAcc) :
    scanGo k revGet fl acc (l1 ++ l2) = scanGo k revGet fl (scanGo k revGet fl acc l1) l2 := by
  induction l1 generalizing acc with
  | nil => rfl
  | cons r rest ih =>
    show scanGo k revGet fl (stepRow k revGet fl acc r) (rest ++ l2) =
      scanGo k revGet fl (scanGo k revGet fl (stepRow k revGet fl acc r) rest) l2
    exact ih _

theorem getAllStep_skip (k : Key) (tf : Option String) (r : Row) (sd : StoredDoc)
    (acc : List DocM × List ErrEv) (hdoc : r.doc = some sd)
    (hdesign : strStartsWith r.id "_design/" = false) (hpay : hasPayload sd.d = false) :
    getAllStep k tf r acc = acc := by
  rw [getAllStep, hdoc]
  simp only [hdesign, Bool.false_eq_true, if_false, hpay]

theorem getAllGo_skip (k : Key) (tf : Option String) (rows1 rows2 : List Row) (r : Row)
    (sd : StoredDoc) (hdoc : r.doc = some sd)
    (hdesign : strStartsWith r.id "_design/" = false) (hpay : hasPayload sd.d = false) :
    getAllGo k tf (rows1 ++ r :: rows2) = getAllGo k tf (rows1 ++ rows2) := by
  induction rows1 with
  | nil =>
    show getAllStep k tf r (getAllGo k tf rows2) = getAllGo k tf rows2
    exact getAllStep_skip k tf r sd _ hdoc hdesign hpay
  | cons r0 rest ih =>
    show getAllStep k tf r0 (getAllGo k tf (rest ++ r :: rows2)) =
      getAllStep k tf r0 (getAllGo k tf (rest ++ rows2))
    rw [ih]

/-- Claim C10, amended.  A non-design stored record without a truthy
payload field contributes nothing to a loadAll scan and nothing to a
getAll scan (no document, no notification of any kind), while the live
change path turns the same record into a single delete notification —
provided its identifier parses; an unparsable identifier is dropped
silently there too (the amendment the counterexample forces). -/
theorem payloadless_records (k : Key) (revGet : RevGet) (fl : Flags) (tf : Option String)
    (rows1 rows2 : List Row) (r : Row) (sd : StoredDoc)
    (hdoc : r.doc = some sd) (hdesign : strStartsWith r.id "_design/" = false)
    (hpay : hasPayload sd.d = false) :
    loadAllM k revGet fl (.ok (rows1 ++ r :: rows2)) =
      loadAllM k revGet fl (.ok (rows1 ++ rows2)) ∧
    getAllM k fl tf (rows1 ++ r :: rows2) = getAllM k fl tf (rows1 ++ rows2) ∧
    (∀ (deleted : Bool) (t i : String), parseFullId r.id = some (t, i) →
      handleChangeM k revGet fl ⟨r.id, deleted, some sd⟩ =
        { noEmits with deleteCalls := [[(t, [i])]] }) ∧
    (∀ deleted : Bool, parseFullId r.id = none →
      handleChangeM k revGet fl ⟨r.id, deleted, some sd⟩ = noEmits) := by
  refine ⟨?_, ?_, ?_, ?_⟩
  · have h1 : scanGo k revGet fl ⟨[], [], [], []⟩ (rows1 ++ r :: rows2) =
        scanGo k revGet fl ⟨[], [], [], []⟩ (rows1 ++ rows2) := by
      rw [scanGo_append, scanGo_append]
      show scanGo k revGet fl
        (stepRow k revGet fl (scanGo k revGet fl ⟨[], [], [], []⟩ rows1) r) rows2 = _
      rw [stepRow_skip k revGet fl _ r sd hdoc hdesign hpay]
    rw [loadAllM, loadAllM, h1]
  · rw [getAllM, getAllM, getAllGo_skip k tf rows1 rows2 r sd hdoc hdesign hpay]
  · intro deleted t i hp
    rw [handleChangeM]
    simp only [hdesign, Bool.false_eq_true, if_false, hpay, Bool.not_false, Bool.or_true,
      if_true, hp]
  · intro deleted hp
    rw [handleChangeM]
    simp only [hdesign, Bool.false_eq_true, if_false, hpay, Bool.not_false, Bool.or_true,
      if_true, hp]

/-- Claim C10 witness: the skip behavior evaluated at a concrete record
whose payload field is the falsy empty string. -/
theorem payloadless_records_witness :
    loadAllM cexKey cexRevGet ⟨true, true⟩
        (.ok [⟨"t_x", some ⟨"t_x", "1-a", some "", []⟩⟩]) =
      loadAllM cexKey cexRevGet ⟨true, true⟩ (.ok []) :=
  (payloadless_records cexKey cexRevGet ⟨true, true⟩ none [] []
    ⟨"t_x", some ⟨"t_x", "1-a", some "", []⟩⟩ ⟨"t_x", "1-a", some "", []⟩
    rfl (by decide) (by decide)).1

/-- Claim C10 counterexample: a non-design record lacking the payload
field whose identifier has no underscore produces no delete
notification on the live path, refuting that the live path emits one
for every such record. -/
theorem payloadless_records_cex :
    (strStartsWith "x" "_design/" = false ∧ hasPayload (none : Option String) = false) ∧
    handleChangeM cexKey cexRevGet ⟨true, true⟩ ⟨"x", false, some ⟨"x", "1-a", none, []⟩⟩ =
      noEmits := by
  refine ⟨⟨by decide, by decide⟩, by decide⟩

/-- Classification of one loadAll scan row: the delivered table-document
pair when the row is a non-design payload row whose try block succeeds
and groups. -/
def rowGood (k : Key) (revGet : RevGet) (fl : Flags) (row : Row) : Option (String × DocM) :=
  match row.doc with
  | none => none
  | some sd =>
    if strStartsWith row.id "_design/" then none
    else if hasPayload sd.d then
      match tryScanRow k revGet fl sd with
      | .ok out => out.1
      | .error _ => none
    else none

/-- Classification of one loadAll scan row: the error event collected
when the try block of a non-design payload row throws. -/
def rowBad (k : Key) (revGet : RevGet) (fl : Flags) (row : Row) : Option ErrEv :=
  match row.doc with
  | none => none
  | some sd =>
    if strStartsWith row.id "_design/" then none
    else if hasPayload sd.d then
      match tryScanRow k revGet fl sd with
      | .ok _ => none
      | .error e => some ⟨sd.id, e⟩
    else none

/-- Classification of one loadAll scan row: the conflicts collected. -/
def rowConfs (k : Key) (revGet : RevGet) (fl : Flags) (row : Row) : List ConflictM :=
  match row.doc with
  | none => []
  | some sd =>
    if strStartsWith row.id "_design/" then []
    else if hasPayload sd.d then
      match tryScanRow k revGet fl sd with
      | .ok out => out.2.1
      | .error _ => []
    else []

/-- Classification of one loadAll scan row: the immediate onError calls
made inside conflict reconstruction. -/
def rowCalls (k : Key) (revGet : RevGet) (fl : Flags) (row : Row) : List (List ErrEv) :=
  match row.doc with
  | none => []
  | some sd =>
    if strStartsWith row.id "_design/" then []
    else if hasPayload sd.d then
      match tryScanRow k revGet fl sd with
      | .ok out => out.2.2
      | .error _ => []
    else []

/-- Grouping fold of the delivered documents into per-table batches. -/
def groupGo (m : List (String × List DocM)) : List (String × DocM) → List (String × List DocM)
  | [] => m
  | (t, dm) :: rest => groupGo (upsert m t dm) rest

theorem stepRow_tbl (k : Key) (revGet : RevGet) (fl : Flags) (acc : ScanAcc) (row : Row) :
    (stepRow k revGet fl acc row).tbl =
      match rowGood k revGet fl row with
      | some (t, dm) => upsert acc.tbl t dm
      | none => acc.tbl := by
  rw [stepRow, rowGood]
  rcases row.doc with _ | sd
  · rfl
  · by_cases hdes : strStartsWith row.id "_design/"
    · simp [hdes]
    · by_cases hpay : hasPayload sd.d
      · rcases htry : tryScanRow k revGet fl sd with e | ⟨grouped, confs, calls⟩
        · simp [hdes, hpay, htry]
        · rcases grouped with _ | ⟨t, dm⟩ <;> simp [hdes, hpay, htry]
      · simp [hdes, hpay]

theorem stepRow_errs (k : Key) (revGet : RevGet) (fl : Flags) (acc : ScanAcc) (row : Row) :
    (stepRow k revGet fl acc row).errs = acc.errs ++ (rowBad k revGet fl row).toList := by
  rw [stepRow, rowBad]
  rcases row.doc with _ | sd
  · simp
  · by_cases hdes : strStartsWith row.id "_design/"
    · simp [hdes]
    · by_cases hpay : hasPayload sd.d
      · rcases htry : tryScanRow k revGet fl sd with e | ⟨grouped, confs, calls⟩
        · simp [hdes, hpay, htry]
        · simp [hdes, hpay, htry]
      · simp [hdes, hpay]

theorem stepRow_confs (k : Key) (revGet : RevGet) (fl : Flags) (acc : ScanAcc) (row : Row) :
    (stepRow k revGet fl acc row).confs = acc.confs ++ rowConfs k revGet fl row := by
  rw [stepRow, rowConfs]
  rcases row.doc with _ | sd
  · simp
  · by_cases hdes : strStartsWith row.id "_design/"
    · simp [hdes]
    · by_cases hpay : hasPayload sd.d
      · rcases htry : tryScanRow k revGet fl sd with e | ⟨grouped, confs, calls⟩
        · simp [hdes, hpay, htry]
        · simp [hdes, hpay, htry]
      · simp [hdes, hpay]

theorem stepRow_calls (k : Key) (revGet : RevGet) (fl : Flags) (acc : ScanAcc) (row : Row) :
    (stepRow k revGet fl acc row).calls = acc.calls ++ rowCalls k revGet fl row := by
  rw [stepRow, rowCalls]
  rcases row.doc with _ | sd
  · simp
  · by_cases hdes : strStartsWith row.id "_design/"
    · simp [hdes]
    · by_cases hpay : hasPayload sd.d
      · rcases htry : tryScanRow k revGet fl sd with e | ⟨grouped, confs, calls⟩
        · simp [hdes, hpay, htry]
        · simp [hdes, hpay, htry]
      · simp [hdes, hpay]

theorem scanGo_spec (k : Key) (revGet : RevGet) (fl : Flags) (rows : List Row) (acc : ScanAcc) :
    scanGo k revGet fl acc rows =
      ⟨groupGo acc.tbl (rows.filterMap (rowGood k revGet fl)),
        acc.errs ++ rows.filterMap (rowBad k revGet fl),
        acc.confs ++ (rows.map (rowConfs k revGet fl)).flatten,
        acc.calls ++ (rows.map (rowCalls k revGet fl)).flatten⟩ := by
  induction rows generalizing acc with
  | nil =>
    simp only [List.filterMap_nil, List.map_nil, List.flatten_nil, List.append_nil]
    rfl
  | cons row rest ih =>
    show scanGo k revGet fl (stepRow k revGet fl acc row) rest = _
    rw [ih]
    rw [List.filterMap_cons, List.filterMap_cons, List.map_cons, List.map_cons,
      List.flatten_cons, List.flatten_cons]
    rw [stepRow_tbl, stepRow_errs, stepRow_confs, stepRow_calls]
    simp only [ScanAcc.mk.injEq]
    refine ⟨?_, ?_, ?_, ?_⟩
    · rcases rowGood k revGet fl row with _ | ⟨t, dm⟩
      · rfl
      · rfl
    · rcases rowBad k revGet fl row with _ | e
      · simp
      · simp
    · simp [List.append_assoc]
    · simp [List.append_assoc]

theorem upsert_ne_nil (m : List (String × List DocM)) (t : String) (dm : DocM) :
    upsert m t dm ≠ [] := by
  cases m with
  | nil => simp [upsert]
  | cons p rest =>
    obtain ⟨t', ds⟩ := p
    rw [upsert]
    split <;> simp

theorem groupGo_ne_nil (m : List (String × List DocM)) (l : List (String × DocM))
    (hm : m ≠ []) : groupGo m l ≠ [] := by
  induction l generalizing m with
  | nil => exact hm
  | cons p rest ih =>
    obtain ⟨t, dm⟩ := p
    exact ih _ (upsert_ne_nil m t dm)

theorem groupGo_nil_ne (l : List (String × DocM)) (hl : l ≠ []) : groupGo [] l ≠ [] := by
  cases l with
  | nil => exact absurd rfl hl
  | cons p rest =>
    obtain ⟨t, dm⟩ := p
    exact groupGo_ne_nil _ rest (upsert_ne_nil [] t dm)

theorem upsert_keys (m : List (String × List DocM)) (t : String) (dm : DocM) :
    (upsert m t dm).map Prod.fst =
      if t ∈ m.map Prod.fst then m.map Prod.fst else m.map Prod.fst ++ [t] := by
  induction m with
  | nil => simp [upsert]
  | cons p rest ih =>
    obtain ⟨t', ds⟩ := p
    rw [upsert]
    by_cases h : t' = t
    · subst h
      simp [List.mem_cons]
    · have hne : ¬(t = t') := fun hc => h hc.symm
      simp only [h, ite_false, List.map_cons]
      rw [ih]
      by_cases hm : t ∈ rest.map Prod.fst
      · rw [if_pos hm, if_pos (List.mem_cons_of_mem _ hm)]
      · have hnm : t ∉ (t', ds).1 :: rest.map Prod.fst := by
          intro hc
          rcases List.mem_cons.mp hc with hc | hc
          · exact hne hc
          · exact hm hc
        rw [if_neg hm, if_neg hnm]
        rfl

theorem groupGo_keys_nodup (l : List (String × DocM)) :
    ∀ m : List (String × List DocM), (m.map Prod.fst).Nodup →
      ((groupGo m l).map Prod.fst).Nodup := by
  induction l with
  | nil =>
    intro m hm
    exact hm
  | cons p rest ih =>
    obtain ⟨t, dm⟩ := p
    intro m hm
    refine ih (upsert m t dm) ?_
    rw [upsert_keys]
    by_cases hmem : t ∈ m.map Prod.fst
    · rw [if_pos hmem]
      exact hm
    · rw [if_neg hmem]
      simp [List.nodup_append, hm, hmem]

theorem groupGo_keys_toFinset (l : List (String × DocM)) :
    ∀ m, ((groupGo m l).map Prod.fst).toFinset =
      (m.map Prod.fst).toFinset ∪ (l.map Prod.fst).toFinset := by
  induction l with
  | nil =>
    intro m
    simp [groupGo]
  | cons p rest ih =>
    obtain ⟨t, dm⟩ := p
    intro m
    rw [show groupGo m ((t, dm) :: rest) = groupGo (upsert m t dm) rest from rfl, ih]
    rw [upsert_keys]
    by_cases hmem : t ∈ m.map Prod.fst
    · rw [if_pos hmem]
      ext x
      simp only [Finset.mem_union, List.mem_toFinset, List.map_cons]
      constructor
      · rintro (hx | hx)
        · exact Or.inl hx
        · refine Or.inr ?_
          simp only [List.mem_cons]
          exact Or.inr hx
      · rintro (hx | hx)
        · exact Or.inl hx
        · simp only [List.mem_cons] at hx
          rcases hx with rfl | hx
          · exact Or.inl hmem
          · exact Or.inr hx
    · rw [if_neg hmem]
      ext x
      simp only [Finset.mem_union, List.mem_toFinset, List.map_cons, List.mem_append,
        List.mem_cons, List.mem_singleton, List.not_mem_nil, or_false]
      tauto

theorem upsert_sum (m : List (String × List DocM)) (t : String) (dm : DocM) :
    ((upsert m t dm).map (fun b => b.2.length)).sum =
      (m.map (fun b => b.2.length)).sum + 1 := by
  induction m with
  | nil => simp [upsert]
  | cons p rest ih =>
    obtain ⟨t', ds⟩ := p
    rw [upsert]
    by_cases h : t' = t
    · simp only [h, ite_true, List.map_cons, List.sum_cons, List.length_append,
        List.length_singleton]
      omega
    · simp only [h, ite_false, List.map_cons, List.sum_cons, ih]
      omega

theorem groupGo_sum (l : List (String × DocM)) :
    ∀ m, ((groupGo m l).map (fun b => b.2.length)).sum =
      (m.map (fun b => b.2.length)).sum + l.length := by
  induction l with
  | nil =>
    intro m
    simp [groupGo]
  | cons p rest ih =>
    obtain ⟨t, dm⟩ := p
    intro m
    rw [show groupGo m ((t, dm) :: rest) = groupGo (upsert m t dm) rest from rfl, ih,
      upsert_sum]
    simp only [List.length_cons]
    omega

theorem loadAllM_ok_eq (k : Key) (revGet : RevGet) (fl : Flags) (rows : List Row) :
    loadAllM k revGet fl (.ok rows) =
      ({ changeCalls := if groupGo [] (rows.filterMap (rowGood k revGet fl)) ≠ []
            then [groupGo [] (rows.filterMap (rowGood k revGet fl))] else []
         deleteCalls := []
         errorCalls := (rows.map (rowCalls k revGet fl)).flatten ++
           (if rows.filterMap (rowBad k revGet fl) ≠ [] ∧ fl.hasOnError
             then [rows.filterMap (rowBad k revGet fl)] else [])
         conflictCalls := if (rows.map (rowConfs k revGet fl)).flatten ≠ [] ∧ fl.hasOnConflict
             then [(rows.map (rowConfs k revGet fl)).flatten] else [] }, true) := by
  rw [loadAllM, scanGo_spec]
  rfl

/-- Claim C4, amended.  A bulk load with at least one delivered document
makes exactly one change call, whose batches have pairwise distinct
tables, number as many as the distinct tables of the delivered
documents, and have per-table counts summing to the number delivered —
undecryptable rows never reduce this.  The final batched error call
happens exactly when some payload row failed and an error listener is
registered, though conflict-revision failures additionally invoke the
error callback separately during the scan; the conflict callback is
invoked exactly once iff conflicts were found and a conflict listener
is registered.  (The amendments: no change call happens for a load with
zero delivered documents, and the error-call count is exact only in the
absence of the separate conflict-revision error calls.) -/
theorem loadAll_batch_aggregation (k : Key) (revGet : RevGet) (fl : Flags) (rows : List Row)
    (hN : rows.filterMap (rowGood k revGet fl) ≠ []) :
    (loadAllM k revGet fl (.ok rows)).1.changeCalls =
      [groupGo [] (rows.filterMap (rowGood k revGet fl))] ∧
    ((groupGo [] (rows.filterMap (rowGood k revGet fl))).map Prod.fst).Nodup ∧
    (groupGo [] (rows.filterMap (rowGood k revGet fl))).length =
      ((rows.filterMap (rowGood k revGet fl)).map Prod.fst).toFinset.card ∧
    ((groupGo [] (rows.filterMap (rowGood k revGet fl))).map (fun b => b.2.length)).sum =
      (rows.filterMap (rowGood k revGet fl)).length ∧
    (loadAllM k revGet fl (.ok rows)).1.errorCalls =
      (rows.map (rowCalls k revGet fl)).flatten ++
        (if rows.filterMap (rowBad k revGet fl) ≠ [] ∧ fl.hasOnError
          then [rows.filterMap (rowBad k revGet fl)] else []) ∧
    ((rows.map (rowCalls k revGet fl)).flatten = [] →
      (loadAllM k revGet fl (.ok rows)).1.errorCalls.length =
        (if rows.filterMap (rowBad k revGet fl) ≠ [] ∧ fl.hasOnError then 1 else 0)) ∧
    (loadAllM k revGet fl (.ok rows)).1.conflictCalls.length =
      (if (rows.map (rowConfs k revGet fl)).flatten ≠ [] ∧ fl.hasOnConflict then 1 else 0) := by
  have hld := loadAllM_ok_eq k revGet fl rows
  have hne := groupGo_nil_ne (rows.filterMap (rowGood k revGet fl)) hN
  have hnodup := groupGo_keys_nodup (rows.filterMap (rowGood k revGet fl)) [] (by simp)
  refine ⟨?_, hnodup, ?_, ?_, ?_, ?_, ?_⟩
  · rw [hld]
    show (if groupGo [] (rows.filterMap (rowGood k revGet fl)) ≠ []
      then [groupGo [] (rows.filterMap (rowGood k revGet fl))] else []) = _
    rw [if_pos hne]
  · have h1 := groupGo_keys_toFinset (rows.filterMap (rowGood k revGet fl)) []
    simp only [List.map_nil, List.toFinset_nil, Finset.empty_union] at h1
    calc (groupGo [] (rows.filterMap (rowGood k revGet fl))).length
        = ((groupGo [] (rows.filterMap (rowGood k revGet fl))).map Prod.fst).length := by
          rw [List.length_map]
      _ = ((groupGo [] (rows.filterMap (rowGood k revGet fl))).map Prod.fst).toFinset.card :=
          (List.toFinset_card_of_nodup hnodup).symm
      _ = ((rows.filterMap (rowGood k revGet fl)).map Prod.fst).toFinset.card := by rw [h1]
  · have h2 := groupGo_sum (rows.filterMap (rowGood k revGet fl)) []
    simpa using h2
  · rw [hld]
  · intro hflat
    rw [hld]
    show ((rows.map (rowCalls k revGet fl)).flatten ++
      (if rows.filterMap (rowBad k revGet fl) ≠ [] ∧ fl.hasOnError
        then [rows.filterMap (rowBad k revGet fl)] else [])).length = _
    rw [hflat, List.nil_append]
    by_cases hb : rows.filterMap (rowBad k revGet fl) ≠ [] ∧ fl.hasOnError = true
    · rw [if_pos hb, if_pos hb]
      rfl
    · rw [if_neg hb, if_neg hb]
      rfl
  · rw [hld]
    show (if (rows.map (rowConfs k revGet fl)).flatten ≠ [] ∧ fl.hasOnConflict
      then [(rows.map (rowConfs k revGet fl)).flatten] else []).length = _
    by_cases hc : (rows.map (rowConfs k revGet fl)).flatten ≠ [] ∧ fl.hasOnConflict = true
    · rw [if_pos hc, if_pos hc]
      rfl
    · rw [if_neg hc, if_neg hc]
      rfl

/-- Concrete rows for the claim C4 witness: three decryptable documents
across two tables and one undecryptable row. -/
def cexRows : List Row :=
  [⟨"expenses_a", some ⟨"expenses_a", "1-a", some cexGoodD, []⟩⟩,
   ⟨"expenses_b", some ⟨"expenses_b", "1-b", some cexGoodD, []⟩⟩,
   ⟨"tasks_c", some ⟨"tasks_c", "1-c", some cexGoodD, []⟩⟩,
   ⟨"bad_x", some ⟨"bad_x", "1-x", some "zz", []⟩⟩]

set_option maxRecDepth 40000 in
/-- Claim C4 witness: the bulk load over the concrete rows makes exactly
one change call. -/
theorem loadAll_batch_aggregation_witness :
    ((loadAllM cexKey cexRevGet ⟨true, true⟩ (.ok cexRows)).1).changeCalls.length = 1 := by
  have h := loadAll_batch_aggregation cexKey cexRevGet ⟨true, true⟩ cexRows (by decide)
  rw [h.1]
  rfl

/-- Claim C4 counterexample: a bulk load over zero documents makes no
change call at all, not exactly one. -/
theorem loadAll_batch_aggregation_cex :
    ((loadAllM cexKey cexRevGet ⟨true, true⟩ (.ok [])).1).changeCalls.length ≠ 1 := by
  decide

/-- Trace of a settled promise in the model of the host promise
runtime: the atomic work steps it performed, in completion order, and
whether it settled fulfilled.  Sequencing is the platform contract of
then: a continuation starts only after the previous promise settled. -/
structure PTrace (α : Type) where
  steps : List α
  ok : Bool
  deriving DecidableEq, Repr

/-- Model of an already-resolved promise (the initial processingChain). -/
def pResolved {α : Type} : PTrace α := ⟨[], true⟩

/-- Model of p.then(f): f runs only after p settles and only when p is
fulfilled; a rejection passes through untouched (so without a catch it
would skip every later handler in the chain). -/
def pThen {α : Type} (p : PTrace α) (f : Unit → PTrace α) : PTrace α :=
  if p.ok then ⟨p.steps ++ (f ()).steps, (f ()).ok⟩ else p

/-- Model of p.catch(g): g runs only when p rejected; the result is
fulfilled when g is. -/
def pCatch {α : Type} (p : PTrace α) (g : Unit → PTrace α) : PTrace α :=
  if p.ok then p else ⟨p.steps ++ (g ()).steps, (g ()).ok⟩

/-- One live change event as scheduled work: the trace of atomic
decrypt, conflict-lookup and dispatch steps its handleChange performs
(of arbitrary length, standing for arbitrary per-event latency) and
whether the processing fails. -/
structure EventJob (α : Type) where
  steps : List α
  fails : Bool
  deriving DecidableEq, Repr

/-- The subscription callback of setupSubscription for one incoming
event: processingChain = processingChain.then(handler).catch(log); the
console logger performs no chain work and never throws. -/
def chainStep {α : Type} (chain : PTrace α) (j : EventJob α) : PTrace α :=
  pCatch (pThen chain (fun _ => ⟨j.steps, !j.fails⟩)) (fun _ => ⟨[], true⟩)

/-- The processing chain threaded through a sequence of incoming live
change events, in emission order. -/
def chainGo {α : Type} (chain : PTrace α) : List (EventJob α) → PTrace α
  | [] => chain
  | j :: rest => chainGo (chainStep chain j) rest

/-- The processing chain of setupSubscription over a whole event
sequence, starting from the resolved promise. -/
def chainRun {α : Type} (js : List (EventJob α)) : PTrace α := chainGo pResolved js

theorem chainGo_spec {α : Type} (js : List (EventJob α)) :
    ∀ chain : PTrace α, chain.ok = true →
      chainGo chain js = ⟨chain.steps ++ (js.map EventJob.steps).flatten, true⟩ := by
  induction js with
  | nil =>
    intro chain hok
    obtain ⟨steps, ok⟩ := chain
    simp only at hok
    rw [chainGo, hok]
    simp
  | cons j rest ih =>
    intro chain hok
    have hstep : chainStep chain j = ⟨chain.steps ++ j.steps, true⟩ := by
      rw [chainStep, pThen, if_pos hok, pCatch]
      cases hf : j.fails with
      | false => rfl
      | true => simp
    show chainGo (chainStep chain j) rest = _
    rw [ih (chainStep chain j) (by rw [hstep]), hstep]
    simp [List.append_assoc]

/-- Claim C5.  Under the settle-then-run contract of the host promise
runtime, the chain built by setupSubscription executes the per-event
work of every live change event strictly in emission order and without
overlap — the completed trace is exactly the concatenation of the
per-event step traces, whatever their lengths — and the chain always
ends fulfilled, so one failing event (its catch logs and resolves)
never prevents any later event from being processed. -/
theorem serialized_event_processing {α : Type} (js : List (EventJob α)) :
    (chainRun js).steps = (js.map EventJob.steps).flatten ∧ (chainRun js).ok = true := by
  have h := chainGo_spec js (pResolved (α := α)) rfl
  rw [chainRun, h]
  exact ⟨by simp [pResolved], rfl⟩

end EP
